import Mathlib

/-!
Verification of the NetBox-CSV-to-diagram pipeline
(`tools/netbox_to_diagram.py`, shipped as
`src/attached_assets/test_1756235972699.py`).

The Python functions are shallowly embedded as Lean functions:

* `normalize_device_token`, `classify_node` — pure string functions,
  embedded over `List Char` data (Python strings are sequences of code
  points; `.lower()` is embedded as a per-character `Char.toLower` map,
  matching Python on ASCII identifiers).
* `processRow` — the per-row accumulation step of `read_edges`
  (connection-style branch): Python `set` accumulation becomes `Finset`.
* `assign_layers` — the multi-source BFS with relaxation, embedded as a
  fuel-indexed transition system on a state `BfsSt` (distances in
  `WithTop ℕ`, mirroring `float("inf")`; the fuel is provably
  sufficient, see `bfsRun_runsOut`).  Python `set`/`dict` iteration
  order over the node set is made explicit as a `List String`
  parameter `order`; everywhere the source iterates over `nodes`, the
  embedding iterates over `order`.
* `layout_positions`, `render_svg`, `render_dot`, `main` — direct
  functional embeddings.  All numbers formatted by `"{:.1f}".format`
  in the source are integral (positions and box sizes are ints, the
  only divisions are `180/2` and `44/2`), so the float formatting is
  embedded as `fmt1 : ℕ → String` appending `".0"`.
-/

/-- Boolean test that `p` is a prefix of `l` (embeds Python `startswith`
on code-point lists). -/
def startsList : List Char → List Char → Bool
  | [], _ => true
  | _ :: _, [] => false
  | a :: as, b :: bs => a == b && startsList as bs

/-- Boolean substring test (embeds the Python `in` operator on strings). -/
def subList (p : List Char) : List Char → Bool
  | [] => p.isEmpty
  | c :: rest => startsList p (c :: rest) || subList p rest

/-- Character-wise lowercasing of a string (embeds Python `str.lower()`;
identical to it on ASCII text). -/
def strLower (s : String) : String := String.mk (s.data.map Char.toLower)

/-- Prefix test on strings via `startsList` (embeds `str.startswith`). -/
def strStarts (s p : String) : Bool := startsList p.data s.data

/-- Substring test on strings via `subList` (embeds `p in s`). -/
def strIn (p s : String) : Bool := subList p.data s.data

/-- Condition of the `switch` rule of `classify_node`:
`ln.startswith("sw-") or (ln.startswith("sw") and len(ln) > 2 and ln[2].isdigit())`. -/
def switchCond (ln : String) : Bool :=
  strStarts ln "sw-" ||
    (strStarts ln "sw" && decide (ln.data.length > 2) &&
      (match ln.data with
       | _ :: _ :: c :: _ => c.isDigit
       | _ => false))

/-- Condition of the `workstation` rule of `classify_node`:
`"wss" in ln or ln.startswith("but-wss") or ln.startswith("wss")`. -/
def workstationCond (ln : String) : Bool :=
  strIn "wss" ln || strStarts ln "but-wss" || strStarts ln "wss"

/-- Condition of the `server` rule of `classify_node`:
`ln.startswith("but-tool") or ln.startswith("ser-") or "tool" in ln`. -/
def serverCond (ln : String) : Bool :=
  strStarts ln "but-tool" || strStarts ln "ser-" || strIn "tool" ln

/-- Embedding of `classify_node(name)`: lower-case the identifier, then
check the switch, workstation, server rules in order, defaulting to
`"other"`. -/
def classify_node (name : String) : String :=
  let ln := strLower name
  if switchCond ln then "switch"
  else if workstationCond ln then "workstation"
  else if serverCond ln then "server"
  else "other"

/-- Characters accepted by the regex class `[A-Za-z0-9_\-]` in
`normalize_device_token`. -/
def isTokChar (c : Char) : Bool :=
  (decide (97 ≤ c.toNat) && decide (c.toNat ≤ 122)) ||
  (decide (65 ≤ c.toNat) && decide (c.toNat ≤ 90)) ||
  (decide (48 ≤ c.toNat) && decide (c.toNat ≤ 57)) ||
  c == '_' || c == '-'

/-- Whitespace characters stripped by `token.strip()` (ASCII whitespace;
identical to Python on the inputs the tool handles). -/
def isSpaceChar (c : Char) : Bool :=
  c == ' ' || c == '\t' || c == '\n' || c == '\r'

/-- Structural embedding of `str.strip()` on the code-point list. -/
def trimList (l : List Char) : List Char :=
  ((l.dropWhile isSpaceChar).reverse.dropWhile isSpaceChar).reverse

/-- Embedding of `normalize_device_token(token)`: empty input maps to
`""`; otherwise the input is stripped and the longest leading run of
`[A-Za-z0-9_\-]` characters is returned (`re.match` needs at least one
such character, else the stripped string itself is returned). -/
def normalize_device_token (token : String) : String :=
  if token = "" then ""
  else
    let t := trimList token.data
    let m := t.takeWhile isTokChar
    if m = [] then String.mk t else String.mk m

/-- Canonical undirected-edge representative: `tuple(sorted((a, b)))`. -/
def sortPair (a b : String) : String × String :=
  if a ≤ b then (a, b) else (b, a)

/-- One row of the connection-style branch of `read_edges`: skip the row
if either raw field is empty, normalize both endpoints, skip if either
normalization is empty or they coincide, otherwise accumulate both nodes
and the canonical sorted edge pair. -/
def processRow (st : Finset String × Finset (String × String))
    (row : String × String) : Finset String × Finset (String × String) :=
  if row.1 = "" || row.2 = "" then st
  else
    let a := normalize_device_token row.1
    let b := normalize_device_token row.2
    if a = "" || b = "" || a = b then st
    else (insert b (insert a st.1), insert (sortPair a b) st.2)

/-- Accumulation of `read_edges` over a whole list of rows, starting
from empty node and edge sets. -/
def readRows (rows : List (String × String)) :
    Finset String × Finset (String × String) :=
  rows.foldl processRow (∅, ∅)

/-- Distance values of `assign_layers`: `float("inf")` becomes `⊤ : WithTop ℕ`
(note `⊤ + 1 = ⊤` and the order on `WithTop ℕ` match IEEE infinity on the
integral values the source manipulates). -/
abbrev HopDist := WithTop ℕ

/-- State of the BFS while-loop of `assign_layers`: the `dist` dictionary
and the pending deque `q`. -/
structure BfsSt where
  dist : String → HopDist
  q : List String

/-- Body of the inner `for v in adj.get(u, [])` loop:
`if dist[v] > dist[u] + 1: dist[v] = dist[u] + 1; q.append(v)`. -/
def relaxStep (u : String) (s : BfsSt) (v : String) : BfsSt :=
  if s.dist u + 1 < s.dist v then
    { dist := Function.update s.dist v (s.dist u + 1), q := s.q ++ [v] }
  else s

/-- One iteration of the while-loop after popping `u`: relax all
neighbours of `u` in order. -/
def bfsStep (adjf : String → List String) (u : String) (s : BfsSt) : BfsSt :=
  (adjf u).foldl (relaxStep u) s

/-- Fuel-indexed unfolding of `while q: u = q.popleft(); ...`.  The fuel
`fuelFor order` is proved sufficient (`bfsRun_runsOut`), so the embedding
agrees with the unbounded source loop. -/
def bfsRun (adjf : String → List String) : ℕ → BfsSt → BfsSt
  | 0, s => s
  | fuel + 1, s =>
    match s.q with
    | [] => s
    | u :: rest => bfsRun adjf fuel (bfsStep adjf u { dist := s.dist, q := rest })

/-- Adjacency function built from the edge list, embedding the dict of
sets `adj` (`adj[a].add(b); adj[b].add(a)`).  Neighbour enumeration
order is immaterial: the final distances are proved equal to graph
distances, which do not depend on it. -/
def neighbors (edges : List (String × String)) (u : String) : List String :=
  edges.foldr (fun e acc =>
    if e.1 = u then e.2 :: acc
    else if e.2 = u then e.1 :: acc
    else acc) []

/-- Seed selection of `assign_layers`: all servers, else all switches,
else the first node the runtime enumerates (`next(iter(nodes))`), else
none.  `order` is the enumeration order of the node set. -/
def seedsOf (order : List String) : List String :=
  if (order.filter (fun n => classify_node n == "server")).isEmpty then
    (if (order.filter (fun n => classify_node n == "switch")).isEmpty then
      order.take 1
    else order.filter (fun n => classify_node n == "switch"))
  else order.filter (fun n => classify_node n == "server")

/-- Initial distance dictionary: `0` at every seed, `inf` elsewhere. -/
def initDist (seeds : List String) : String → HopDist :=
  fun n => if n ∈ seeds then 0 else ⊤

/-- Fuel sufficient to drain the BFS queue (proved in `bfsRun_runsOut`). -/
def fuelFor (order : List String) : ℕ :=
  order.length * (order.length * order.length + 1) + order.length + 1

/-- The BFS state after the while-loop of `assign_layers` finishes. -/
def bfsFinal (order : List String) (edges : List (String × String)) : BfsSt :=
  bfsRun (neighbors edges) (fuelFor order)
    { dist := initDist (seedsOf order), q := seedsOf order }

/-- Embedding of Python `min(xs)` on a list of naturals, with the
source's `if finite else 0` default for the empty list. -/
def pyMin : List ℕ → ℕ
  | [] => 0
  | x :: xs => xs.foldl min x

/-- Embedding of Python `max(xs)` on a list of naturals, defaulting to 0
on the empty list (the source's `if dist else 0`). -/
def pyMax : List ℕ → ℕ
  | [] => 0
  | x :: xs => xs.foldl max x

/-- The list `finite = [d for d in dist.values() if d != float("inf")]`. -/
def finiteVals (order : List String) (d : String → HopDist) : List ℕ :=
  (order.filter (fun n => !decide (d n = ⊤))).map (fun n => (d n).untop' 0)

/-- Layer of each node after the BFS pass, the unreachable-to-0 rewrite
and the `int(dist[n] - min_d)` normalization — i.e. the layer map just
before the workstation post-processing and the re-indexing. -/
def preLayer (order : List String) (edges : List (String × String)) :
    String → ℕ :=
  let d := (bfsFinal order edges).dist
  let min_d := pyMin (finiteVals order d)
  fun n => if d n = ⊤ then 0 else (d n).untop' 0 - min_d

/-- The value `max_d = max(dist.values()) if dist else 0`. -/
def maxPre (order : List String) (edges : List (String × String)) : ℕ :=
  pyMax (order.map (preLayer order edges))

/-- Layer map after the workstation push
(`dist[n] = max(dist[n], max_d)` for every workstation). -/
def pushedLayer (order : List String) (edges : List (String × String)) :
    String → ℕ :=
  fun n =>
    if classify_node n = "workstation" then max (preLayer order edges n) (maxPre order edges)
    else preLayer order edges n

/-- The list `layers = sorted(set(dist.values()))`. -/
def layerVals (order : List String) (edges : List (String × String)) : List ℕ :=
  List.insertionSort (· ≤ ·) ((order.map (pushedLayer order edges)).dedup)

/-- Embedding of `assign_layers(nodes, edges)`: the final re-indexed
dense layer map (`mapping = {old: i for i, old in enumerate(layers)}`).
Only its restriction to `order` is meaningful, exactly as the Python
dict is keyed by `nodes`. -/
def assign_layers (order : List String) (edges : List (String × String)) :
    String → ℕ :=
  fun n => (layerVals order edges).indexOf (pushedLayer order edges n)

/-- Intra-column sort key of `layout_positions`:
`key=lambda x: (classify_node(x), x)` compared the way Python compares
string tuples, i.e. lexicographically. -/
def nodeKeyLe (a b : String) : Prop :=
  classify_node a < classify_node b ∨ (classify_node a = classify_node b ∧ a ≤ b)

instance : DecidableRel nodeKeyLe := fun a b => by
  unfold nodeKeyLe
  infer_instance

instance : IsTotal String nodeKeyLe := by
  constructor
  intro a b
  unfold nodeKeyLe
  rcases lt_trichotomy (classify_node a) (classify_node b) with h | h | h
  · exact Or.inl (Or.inl h)
  · rcases le_total a b with hab | hab
    · exact Or.inl (Or.inr ⟨h, hab⟩)
    · exact Or.inr (Or.inr ⟨h.symm, hab⟩)
  · exact Or.inr (Or.inl h)

instance : IsTrans String nodeKeyLe := by
  constructor
  intro a b c hab hbc
  unfold nodeKeyLe at *
  rcases hab with h1 | ⟨h1, h1b⟩ <;> rcases hbc with h2 | ⟨h2, h2b⟩
  · exact Or.inl (h1.trans h2)
  · exact Or.inl (h2 ▸ h1)
  · exact Or.inl (h1 ▸ h2)
  · exact Or.inr ⟨h1.trans h2, h1b.trans h2b⟩

instance : IsAntisymm String nodeKeyLe := by
  constructor
  intro a b hab hba
  rcases hab with h1 | ⟨h1, h1b⟩ <;> rcases hba with h2 | ⟨h2, h2b⟩
  · exact absurd (h1.trans h2) (lt_irrefl _)
  · exact absurd h1 (h2 ▸ lt_irrefl _)
  · exact absurd h2 (h1 ▸ lt_irrefl _)
  · exact le_antisymm h1b h2b

/-- The sorted column of nodes having layer value `i`
(`per_layer[i]`, sorted by `(classify_node(x), x)`). -/
def colOf (lm : String → ℕ) (order : List String) (i : ℕ) : List String :=
  List.insertionSort nodeKeyLe (order.filter (fun n => lm n == i))

/-- The sorted list of layer values that occur (`sorted(per_layer.keys())`). -/
def colIndices (lm : String → ℕ) (order : List String) : List ℕ :=
  List.insertionSort (· ≤ ·) ((order.map lm).dedup)

/-- The columns `ordered = [per_layer[i] for i in sorted(per_layer.keys())]`. -/
def orderedCols (lm : String → ℕ) (order : List String) : List (List String) :=
  (colIndices lm order).map (colOf lm order)

/-- The position dictionary as an association list:
`x = margin_x + ix * step_x`, `y = margin_y + iy * step_y`. -/
def positionsList (lm : String → ℕ) (order : List String) :
    List (String × ℕ × ℕ) :=
  (orderedCols lm order).enum.flatMap (fun p =>
    p.2.enum.map (fun q => (q.2, (80 + p.1 * 240, 80 + q.1 * 110))))

/-- Canvas width `margin_x * 2 + max(0, len(ordered) - 1) * step_x + box_w`
(`max(0, k - 1)` on integers is `k - 1` on naturals). -/
def canvasW (lm : String → ℕ) (order : List String) : ℕ :=
  80 * 2 + ((orderedCols lm order).length - 1) * 240 + 180

/-- The value `max((len(c) for c in ordered), default=1)`. -/
def maxColLen (cols : List (List String)) : ℕ :=
  match cols.map List.length with
  | [] => 1
  | x :: xs => xs.foldl max x

/-- Canvas height `margin_y * 2 + (maxColLen - 1) * step_y + box_h`. -/
def canvasH (lm : String → ℕ) (order : List String) : ℕ :=
  80 * 2 + (maxColLen (orderedCols lm order) - 1) * 110 + 44

/-- Embedding of `"{:.1f}".format(x)` for the integral values the
renderer formats. -/
def fmt1 (x : ℕ) : String := toString x ++ ".0"

/-- Embedding of `svg_escape`: chained replacement of `&`, `<`, `>`. -/
def svg_escape (s : String) : String :=
  ((s.replace "&" "&amp;").replace "<" "&lt;").replace ">" "&gt;"

/-- The role-to-fill-colour dict `color_map` of `render_svg`. -/
def color_map : List (String × String) :=
  [("server", "#dbeafe"), ("switch", "#dcfce7"),
   ("workstation", "#fde68a"), ("other", "#e5e7eb")]

/-- Fill colour selection `color_map.get(t, "#e5e7eb")`. -/
def svgFill (t : String) : String := (color_map.lookup t).getD "#e5e7eb"

/-- The two-character sequence backslash-`n` produced by the `"...\\n"`
literals of `render_svg` (a literal backslash and letter n, not a
newline). -/
def bsn : String := "\\n"

/-- The XML declaration at the start of the SVG header. -/
def svgDecl : String := "<?xml version=\"1.0\" encoding=\"UTF-8\"?>"

/-- The `<svg ...>` open tag of the header (built by the two
`header +=` lines, without their trailing `\\n`). -/
def svgOpenTag (w h : ℕ) : String :=
  "<svg xmlns=\"http://www.w3.org/2000/svg\" version=\"1.1\"" ++
    " width=\"" ++ toString w ++ "\" height=\"" ++ toString h ++
    "\" viewBox=\"0 0 " ++ toString w ++ " " ++ toString h ++ "\">"

/-- The `<style>` block of the header (without its trailing `\\n`). -/
def svgStyle : String :=
  "<style>text\x7bfont-family:Arial,Helvetica,sans-serif;font-size:12px;fill:#0f172a\x7d .node\x7brx:8;ry:8;stroke:#0f172a;stroke-width:1\x7d</style>"

/-- The complete `header` string of `render_svg`. -/
def svgHeader (w h : ℕ) : String :=
  svgDecl ++ bsn ++ svgOpenTag w h ++ bsn ++ svgStyle ++ bsn

/-- Embedding of `"\n".join(parts)`. -/
def joinNl : List String → String
  | [] => ""
  | [a] => a
  | a :: b :: rest => a ++ "\n" ++ joinNl (b :: rest)

/-- The edge `<line .../>` elements: drawn between box centres
(`x + box_w / 2 = x + 90.0`, `y + box_h / 2 = y + 22.0`), skipping an
edge when an endpoint has no position. -/
def svgEdgeLines (posl : List (String × ℕ × ℕ))
    (edges : List (String × String)) : List String :=
  edges.filterMap (fun e =>
    match posl.lookup e.1, posl.lookup e.2 with
    | some p1, some p2 =>
      some ("<line x1=\"" ++ fmt1 (p1.1 + 90) ++ "\" y1=\"" ++ fmt1 (p1.2 + 22) ++
            "\" x2=\"" ++ fmt1 (p2.1 + 90) ++ "\" y2=\"" ++ fmt1 (p2.2 + 22) ++
            "\" stroke=\"#475569\" stroke-width=\"1.2\"/>")
    | _, _ => none)

/-- The node `<rect/>` and `<text/>` elements, iterated in
`sorted(nodes)` order.  Every node of `order` has a position; the
`getD` default is never reached on the pipeline's inputs. -/
def svgNodeLines (posl : List (String × ℕ × ℕ)) (order : List String) :
    List String :=
  (List.insertionSort (· ≤ ·) order).flatMap (fun n =>
    let p := (posl.lookup n).getD (0, 0)
    ["<rect class=\"node\" x=\"" ++ fmt1 p.1 ++ "\" y=\"" ++ fmt1 p.2 ++
       "\" width=\"" ++ fmt1 180 ++ "\" height=\"" ++ fmt1 44 ++
       "\" fill=\"" ++ svgFill (classify_node n) ++ "\"/>",
     "<text x=\"" ++ fmt1 (p.1 + 8) ++ "\" y=\"" ++ fmt1 (p.2 + 27) ++ "\">" ++
       svg_escape n ++ "</text>"])

/-- The four legend entries, in source order. -/
def legendItems : List (String × String) :=
  [("server", "#dbeafe"), ("switch", "#dcfce7"),
   ("workstation", "#fde68a"), ("other", "#e5e7eb")]

/-- The legend block of `render_svg` (`lx = w - 220`, `ly = 20`,
`yy = ly + 16 + i * 22`). -/
def svgLegendLines (w : ℕ) : List String :=
  ["<g class=\"legend\">",
   "<text x=\"" ++ toString (w - 220) ++ "\" y=\"" ++ toString 20 ++ "\">Legend</text>"] ++
  legendItems.enum.flatMap (fun p =>
    ["<rect x=\"" ++ toString (w - 220) ++ "\" y=\"" ++ toString (36 + p.1 * 22) ++
       "\" width=\"14\" height=\"14\" fill=\"" ++ p.2.2 ++ "\" rx=\"4\" ry=\"4\"/>",
     "<text x=\"" ++ toString (w - 220 + 20) ++ "\" y=\"" ++ toString (36 + p.1 * 22 + 12) ++
       "\">" ++ p.2.1 ++ "</text>"]) ++
  ["</g>"]

/-- Embedding of `render_svg` (the string written to the `.svg` file). -/
def render_svg (order : List String) (edges : List (String × String))
    (lm : String → ℕ) : String :=
  let posl := positionsList lm order
  let w := canvasW lm order
  let h := canvasH lm order
  joinNl ([svgHeader w h,
           "<rect x=\"0\" y=\"0\" width=\"100%\" height=\"100%\" fill=\"#ffffff\"/>",
           "<text x=\"16\" y=\"20\">Network diagram</text>"] ++
          svgEdgeLines posl edges ++
          svgNodeLines posl order ++
          svgLegendLines w ++
          ["</svg>"])

/-- The DOT node statement for one node, by role; nodes classified
`other` get the bare attribute list `[shape=ellipse];` with no fill. -/
def dotNodeLine (n : String) : String :=
  let t := classify_node n
  if t = "switch" then
    "  \"" ++ n ++ "\" [shape=box, style=filled, fillcolor=lightblue];"
  else if t = "server" then
    "  \"" ++ n ++ "\" [shape=component, style=filled, fillcolor=lightgreen];"
  else if t = "workstation" then
    "  \"" ++ n ++ "\" [shape=ellipse, style=filled, fillcolor=gold];"
  else
    "  \"" ++ n ++ "\" [shape=ellipse];"

/-- The DOT edge statement `"a" -- "b";`. -/
def dotEdgeLine (e : String × String) : String :=
  "  \"" ++ e.1 ++ "\" -- \"" ++ e.2 ++ "\";"

/-- Embedding of `render_dot` (the string written to the `.dot` file);
the `layers_map` argument is unused in the source as well. -/
def render_dot (order : List String) (edges : List (String × String))
    (_lm : String → ℕ) : String :=
  joinNl (["graph network \x7b", "  overlap=false;", "  splines=true;"] ++
          (List.insertionSort (· ≤ ·) order).map dotNodeLine ++
          edges.map dotEdgeLine ++ ["\x7d"])

/-- Embedding of the driver `main`, as a function of whether the input
file exists, the parsed `(nodes, edges)` (with `order` the node-set
enumeration), and the `--no-dot` flag.  Result: exit status, optional
diagnostic, optional SVG artifact content, optional DOT artifact
content. -/
def mainModel (csvExists : Bool) (order : List String)
    (edges : List (String × String)) (noDot : Bool) :
    ℕ × Option String × Option String × Option String :=
  if csvExists = false then
    (2, some "ERR: CSV not found", none, none)
  else if edges.isEmpty then
    (1, some "WARN: No edges parsed from CSV. No diagram produced.", none, none)
  else
    let lm := assign_layers order edges
    let svg := render_svg order edges lm
    if noDot then (0, none, some svg, none)
    else (0, none, some svg, some (render_dot order edges lm))

/-- Decidable bounded reachability: `withinB order adjf seeds k v` holds
exactly when `v` is at hop distance at most `k` from some seed along the
adjacency `adjf` (intermediate vertices drawn from `order`).  This is the
specification yardstick the BFS result is measured against. -/
def withinB (order : List String) (adjf : String → List String)
    (seeds : List String) : ℕ → String → Bool
  | 0, v => decide (v ∈ seeds)
  | k + 1, v =>
    withinB order adjf seeds k v ||
      order.any (fun u => decide (v ∈ adjf u) && withinB order adjf seeds k u)

/-- Hypothesis that the adjacency only mentions enumerated nodes (in the
source this holds because `adj = {n: set() for n in nodes}` would raise
`KeyError` otherwise). -/
def AdjIn (adjf : String → List String) (order : List String) : Prop :=
  ∀ u v, v ∈ adjf u → v ∈ order

/-- Number of enumerated nodes still at infinite distance. -/
def infCount (order : List String) (d : String → HopDist) : ℕ :=
  order.countP (fun v => decide (d v = ⊤))

/-- Sum of the (truncated) finite distances over the node enumeration. -/
def finSum (order : List String) (d : String → HopDist) : ℕ :=
  (order.map (fun v => (d v).untop' 0)).sum

/-- Termination measure of the BFS loop: it strictly decreases at every
iteration (`bfsMeasure_step`). -/
def bfsMeasure (order : List String) (s : BfsSt) : ℕ :=
  infCount order s.dist * (order.length * order.length + 1) +
    finSum order s.dist + s.q.length

/-- Invariants maintained by the BFS loop of `assign_layers`. -/
structure BfsInv (order : List String) (adjf : String → List String)
    (seeds : List String) (s : BfsSt) : Prop where
  qmem : ∀ x ∈ s.q, x ∈ order
  outside : ∀ v, v ∉ order → s.dist v = ⊤
  bounded : ∀ v, s.dist v ≠ ⊤ →
    (s.dist v).untop' 0 + 1 + infCount order s.dist ≤ order.length
  sound : ∀ v, s.dist v ≠ ⊤ →
    withinB order adjf seeds ((s.dist v).untop' 0) v = true
  covered : ∀ u, u ∈ s.q ∨ ∀ v ∈ adjf u, s.dist v ≤ s.dist u + 1

/-- Boundedness invariant of the distance dictionary: every finite
distance, plus one, plus the number of still-infinite nodes, fits in the
node count.  It guarantees the fuel bound. -/
def BoundedInv (order : List String) (d : String → HopDist) : Prop :=
  ∀ v, d v ≠ ⊤ → (d v).untop' 0 + 1 + infCount order d ≤ order.length

/-- The per-column sizes, one per distinct layer value (spec-side
yardstick for the canvas-height formula). -/
def colSizesSpec (lm : String → ℕ) (order : List String) : List ℕ :=
  ((order.map lm).dedup).map
    (fun i => (order.filter (fun n => lm n == i)).length)

/-- The maximum column size, taken as 1 when there are no columns
(spec-side yardstick, independent of the sorting done by the layout). -/
def maxColSpec (lm : String → ℕ) (order : List String) : ℕ :=
  if colSizesSpec lm order = [] then 1 else pyMax (colSizesSpec lm order)

theorem not_add_one_lt_self (x : HopDist) : ¬ (x + 1 < x) := fun h =>
  absurd (lt_of_le_of_lt le_self_add h) (lt_irrefl x)

theorem relaxStep_dist_le (u : String) (s : BfsSt) (v w : String) :
    (relaxStep u s v).dist w ≤ s.dist w := by
  unfold relaxStep
  split
  · rename_i h
    by_cases hw : w = v
    · subst hw
      simpa [Function.update_same] using le_of_lt h
    · simp [Function.update_noteq hw]
  · exact le_rfl

theorem relaxStep_dist_u (u : String) (s : BfsSt) (v : String) :
    (relaxStep u s v).dist u = s.dist u := by
  unfold relaxStep
  split
  · rename_i h
    by_cases hu : u = v
    · subst hu
      exact absurd h (not_add_one_lt_self _)
    · simp [Function.update_noteq hu]
  · rfl

theorem relaxStep_q_grow (u : String) (s : BfsSt) (v : String) :
    ∃ app, (relaxStep u s v).q = s.q ++ app ∧ ∀ x ∈ app, x = v := by
  unfold relaxStep
  split
  · exact ⟨[v], rfl, by simp⟩
  · exact ⟨[], by simp, by simp⟩

theorem relaxStep_changed (u : String) (s : BfsSt) (v w : String)
    (h : (relaxStep u s v).dist w ≠ s.dist w) :
    w = v ∧ (relaxStep u s v).dist w = s.dist u + 1 ∧
      (relaxStep u s v).q = s.q ++ [v] := by
  unfold relaxStep at *
  by_cases hc : s.dist u + 1 < s.dist v
  · rw [if_pos hc] at h ⊢
    by_cases hw : w = v
    · subst hw
      exact ⟨rfl, by simp [Function.update_same], rfl⟩
    · exact absurd (Function.update_noteq hw _ _) h
  · rw [if_neg hc] at h
    exact absurd rfl h

theorem foldRelax_dist_le (u : String) (l : List String) (s : BfsSt) (w : String) :
    (l.foldl (relaxStep u) s).dist w ≤ s.dist w := by
  induction l generalizing s with
  | nil => exact le_rfl
  | cons v tl ih =>
    exact le_trans (ih (relaxStep u s v)) (relaxStep_dist_le u s v w)

theorem foldRelax_dist_u (u : String) (l : List String) (s : BfsSt) :
    (l.foldl (relaxStep u) s).dist u = s.dist u := by
  induction l generalizing s with
  | nil => rfl
  | cons v tl ih =>
    rw [List.foldl_cons, ih (relaxStep u s v), relaxStep_dist_u]

theorem foldRelax_q_grow (u : String) (l : List String) (s : BfsSt) :
    ∃ app, (l.foldl (relaxStep u) s).q = s.q ++ app ∧ ∀ x ∈ app, x ∈ l := by
  induction l generalizing s with
  | nil => exact ⟨[], by simp, by simp⟩
  | cons v tl ih =>
    obtain ⟨app1, h1, h1m⟩ := relaxStep_q_grow u s v
    obtain ⟨app2, h2, h2m⟩ := ih (relaxStep u s v)
    refine ⟨app1 ++ app2, ?_, ?_⟩
    · rw [List.foldl_cons, h2, h1, List.append_assoc]
    · intro x hx
      rcases List.mem_append.1 hx with hx | hx
      · exact (h1m x hx) ▸ List.mem_cons_self v tl
      · exact List.mem_cons_of_mem v (h2m x hx)

theorem foldRelax_changed (u : String) (l : List String) (s : BfsSt) (w : String)
    (h : (l.foldl (relaxStep u) s).dist w ≠ s.dist w) :
    (l.foldl (relaxStep u) s).dist w = s.dist u + 1 ∧
      w ∈ (l.foldl (relaxStep u) s).q ∧ w ∈ l := by
  induction l generalizing s with
  | nil => exact absurd rfl h
  | cons v tl ih =>
    rw [List.foldl_cons] at h ⊢
    by_cases h1 : (tl.foldl (relaxStep u) (relaxStep u s v)).dist w =
        (relaxStep u s v).dist w
    · have h2 : (relaxStep u s v).dist w ≠ s.dist w := fun he => h (h1.trans he)
      obtain ⟨hwv, hval, hq⟩ := relaxStep_changed u s v w h2
      refine ⟨h1.trans hval, ?_, hwv ▸ List.mem_cons_self v tl⟩
      · obtain ⟨app, happ, _⟩ := foldRelax_q_grow u tl (relaxStep u s v)
        rw [happ, hq]
        subst hwv
        simp
    · obtain ⟨hval, hq, hmem⟩ := ih (relaxStep u s v) h1
      exact ⟨hval.trans (by rw [relaxStep_dist_u]), hq, List.mem_cons_of_mem v hmem⟩

theorem foldRelax_relaxed (u : String) (l : List String) (s : BfsSt) :
    ∀ v ∈ l, (l.foldl (relaxStep u) s).dist v ≤ s.dist u + 1 := by
  induction l generalizing s with
  | nil => intro v hv; exact absurd hv (List.not_mem_nil v)
  | cons v0 tl ih =>
    intro v hv
    rw [List.foldl_cons]
    have hstep : (relaxStep u s v0).dist v0 ≤ s.dist u + 1 := by
      unfold relaxStep
      split
      · simp [Function.update_same]
      · rename_i hc
        exact le_of_not_lt hc
    rcases List.mem_cons.1 hv with hv | hv
    · rw [hv]
      exact le_trans (foldRelax_dist_le u tl _ v0) hstep
    · calc (tl.foldl (relaxStep u) (relaxStep u s v0)).dist v
          ≤ (relaxStep u s v0).dist u + 1 := ih (relaxStep u s v0) v hv
        _ = s.dist u + 1 := by rw [relaxStep_dist_u]

theorem fired_dist_ne_top {x y : HopDist} (h : x + 1 < y) : x ≠ ⊤ := by
  intro hx
  rw [hx] at h
  simp at h

theorem finSum_update (order : List String) (hN : order.Nodup)
    (d : String → HopDist) (v : String) (hv : v ∈ order) (x : HopDist) :
    finSum order (Function.update d v x) + (d v).untop' 0 =
      finSum order d + x.untop' 0 := by
  induction order with
  | nil => cases hv
  | cons a tl ih =>
    have hnotin : a ∉ tl := (List.nodup_cons.1 hN).1
    unfold finSum at *
    rcases List.mem_cons.1 hv with hva | hvtl
    · have htl : List.map (fun w => (Function.update d v x w).untop' 0) tl =
          List.map (fun w => (d w).untop' 0) tl := by
        apply List.map_congr_left
        intro w hw
        have hwv : w ≠ v := fun he => hnotin (show a ∈ tl from (he.trans hva) ▸ hw)
        rw [Function.update_noteq hwv]
      rw [List.map_cons, List.map_cons, List.sum_cons, List.sum_cons, htl,
        hva, Function.update_same]
      omega
    · have hav : a ≠ v := fun he => hnotin (show a ∈ tl from he ▸ hvtl)
      rw [List.map_cons, List.map_cons, List.sum_cons, List.sum_cons,
        Function.update_noteq hav]
      have := ih (List.nodup_cons.1 hN).2 hvtl
      omega

theorem infCount_update (order : List String) (hN : order.Nodup)
    (d : String → HopDist) (v : String) (hv : v ∈ order) (x : HopDist) :
    infCount order (Function.update d v x) +
        (if d v = ⊤ then 1 else 0) =
      infCount order d + (if x = ⊤ then 1 else 0) := by
  induction order with
  | nil => cases hv
  | cons a tl ih =>
    have hnotin : a ∉ tl := (List.nodup_cons.1 hN).1
    unfold infCount at *
    rcases List.mem_cons.1 hv with hva | hvtl
    · have htl : List.countP (fun w => decide (Function.update d v x w = ⊤)) tl =
          List.countP (fun w => decide (d w = ⊤)) tl := by
        apply List.countP_congr
        intro w hw
        have hwv : w ≠ v := fun he => hnotin (show a ∈ tl from (he.trans hva) ▸ hw)
        rw [Function.update_noteq hwv]
      rw [List.countP_cons, List.countP_cons, htl, hva, Function.update_same]
      by_cases hx : x = ⊤ <;> by_cases hda : d a = ⊤ <;> simp [hx, hda]
    · have hav : a ≠ v := fun he => hnotin (show a ∈ tl from he ▸ hvtl)
      rw [List.countP_cons, List.countP_cons, Function.update_noteq hav]
      have := ih (List.nodup_cons.1 hN).2 hvtl
      omega

theorem len_le_sq_add_one (n : ℕ) : n ≤ n * n + 1 := by nlinarith


theorem add_one_ne_top {x : HopDist} (hx : x ≠ ⊤) : x + 1 ≠ ⊤ := by
  obtain ⟨a, ha⟩ := WithTop.ne_top_iff_exists.1 hx
  rw [← ha, ← WithTop.coe_one, ← WithTop.coe_add]
  exact WithTop.coe_ne_top

theorem untop_add_one {x : HopDist} (hx : x ≠ ⊤) :
    (x + 1).untop' 0 = x.untop' 0 + 1 := by
  obtain ⟨a, ha⟩ := WithTop.ne_top_iff_exists.1 hx
  rw [← ha, ← WithTop.coe_one, ← WithTop.coe_add, WithTop.untop'_coe,
    WithTop.untop'_coe]

theorem ne_top_of_lt_ne_top {x y : HopDist} (hy : y ≠ ⊤) (h : x < y) : x ≠ ⊤ := by
  intro hx
  rw [hx] at h
  exact hy (top_le_iff.1 (le_of_lt h))

theorem untop_lt_of_lt {x y : HopDist} (hy : y ≠ ⊤) (h : x < y) :
    x.untop' 0 < y.untop' 0 := by
  have hx : x ≠ ⊤ := ne_top_of_lt_ne_top hy h
  obtain ⟨a, ha⟩ := WithTop.ne_top_iff_exists.1 hx
  obtain ⟨b, hb⟩ := WithTop.ne_top_iff_exists.1 hy
  rw [← ha, ← hb, WithTop.untop'_coe, WithTop.untop'_coe]
  rw [← ha, ← hb, WithTop.coe_lt_coe] at h
  exact h

theorem relaxStep_bounded_measure (order : List String) (hN : order.Nodup)
    (u v : String) (s : BfsSt) (hv : v ∈ order)
    (hB : BoundedInv order s.dist) :
    BoundedInv order (relaxStep u s v).dist ∧
      infCount order (relaxStep u s v).dist * (order.length * order.length + 1) +
          finSum order (relaxStep u s v).dist + (relaxStep u s v).q.length ≤
        infCount order s.dist * (order.length * order.length + 1) +
          finSum order s.dist + s.q.length := by
  unfold relaxStep
  split
  case isFalse => exact ⟨hB, le_rfl⟩
  case isTrue h =>
  dsimp only
  have hut : s.dist u ≠ ⊤ := fired_dist_ne_top h
  have hxtop : s.dist u + 1 ≠ ⊤ := add_one_ne_top hut
  have hxuntop : (s.dist u + 1).untop' 0 = (s.dist u).untop' 0 + 1 :=
    untop_add_one hut
  have hBu := hB u hut
  have hfin := finSum_update order hN s.dist v hv (s.dist u + 1)
  have hinf := infCount_update order hN s.dist v hv (s.dist u + 1)
  rw [if_neg hxtop] at hinf
  rw [hxuntop] at hfin
  have hqlen : (s.q ++ [v]).length = s.q.length + 1 := by simp
  by_cases hdv : s.dist v = ⊤
  -- first relaxation of v: the count of infinite nodes strictly drops
  · have hvcnt : 0 < infCount order s.dist := by
      unfold infCount
      rw [List.countP_pos_iff]
      exact ⟨v, hv, by simp [hdv]⟩
    rw [if_pos hdv] at hinf
    rw [hdv, WithTop.untop'_top] at hfin
    have hKn := len_le_sq_add_one order.length
    constructor
    · intro w hw
      by_cases hwv : w = v
      · subst hwv
        rw [Function.update_same] at hw ⊢
        rw [hxuntop]
        omega
      · rw [Function.update_noteq hwv] at hw ⊢
        have := hB w hw
        omega
    · rw [hqlen]
      have h1 : infCount order (Function.update s.dist v (s.dist u + 1)) + 1 =
          infCount order s.dist := hinf
      have h3 : infCount order (Function.update s.dist v (s.dist u + 1)) *
            (order.length * order.length + 1) + (order.length * order.length + 1) =
          infCount order s.dist * (order.length * order.length + 1) := by
        rw [← h1]
        ring
      omega
  -- v already finite: the sum of finite distances strictly drops
  · have hjm : (s.dist u + 1).untop' 0 < (s.dist v).untop' 0 :=
      untop_lt_of_lt hdv h
    rw [hxuntop] at hjm
    rw [if_neg hdv] at hinf
    constructor
    · intro w hw
      by_cases hwv : w = v
      · subst hwv
        rw [Function.update_same] at hw ⊢
        rw [hxuntop]
        have := hB w hdv
        omega
      · rw [Function.update_noteq hwv] at hw ⊢
        have := hB w hw
        omega
    · rw [hqlen]
      have h1 : infCount order (Function.update s.dist v (s.dist u + 1)) =
          infCount order s.dist := by omega
      rw [h1]
      omega

theorem foldRelax_bounded_measure (order : List String) (hN : order.Nodup)
    (u : String) (l : List String) (s : BfsSt)
    (hl : ∀ v ∈ l, v ∈ order) (hB : BoundedInv order s.dist) :
    BoundedInv order (l.foldl (relaxStep u) s).dist ∧
      infCount order (l.foldl (relaxStep u) s).dist *
            (order.length * order.length + 1) +
          finSum order (l.foldl (relaxStep u) s).dist +
          (l.foldl (relaxStep u) s).q.length ≤
        infCount order s.dist * (order.length * order.length + 1) +
          finSum order s.dist + s.q.length := by
  induction l generalizing s with
  | nil => exact ⟨hB, le_rfl⟩
  | cons v tl ih =>
    have hv : v ∈ order := hl v (List.mem_cons_self v tl)
    obtain ⟨hB1, hm1⟩ := relaxStep_bounded_measure order hN u v s hv hB
    obtain ⟨hB2, hm2⟩ := ih (relaxStep u s v)
      (fun w hw => hl w (List.mem_cons_of_mem v hw)) hB1
    exact ⟨hB2, le_trans hm2 hm1⟩

theorem bfsStep_inv (order : List String) (adjf : String → List String)
    (seeds : List String) (hadj : AdjIn adjf order) (hN : order.Nodup)
    (dist : String → HopDist) (u : String) (rest : List String)
    (hI : BfsInv order adjf seeds ⟨dist, u :: rest⟩) :
    BfsInv order adjf seeds (bfsStep adjf u ⟨dist, rest⟩) ∧
      bfsMeasure order (bfsStep adjf u ⟨dist, rest⟩) <
        bfsMeasure order ⟨dist, u :: rest⟩ := by
  unfold bfsStep
  have hu_ord : u ∈ order := hI.qmem u (List.mem_cons_self u rest)
  have hl : ∀ v ∈ adjf u, v ∈ order := fun v hv => hadj u v hv
  obtain ⟨hB1, hmeas⟩ :=
    foldRelax_bounded_measure order hN u (adjf u) ⟨dist, rest⟩ hl hI.bounded
  obtain ⟨app, happ, happm⟩ := foldRelax_q_grow u (adjf u) ⟨dist, rest⟩
  refine ⟨⟨?_, ?_, hB1, ?_, ?_⟩, ?_⟩
  -- qmem
  · intro x hx
    rw [happ] at hx
    rcases List.mem_append.1 hx with hx | hx
    · exact hI.qmem x (List.mem_cons_of_mem u hx)
    · exact hl x (happm x hx)
  -- outside
  · intro w hw
    by_cases hch : ((adjf u).foldl (relaxStep u) ⟨dist, rest⟩).dist w = dist w
    · rw [hch]
      exact hI.outside w hw
    · obtain ⟨_, _, hmem⟩ := foldRelax_changed u (adjf u) ⟨dist, rest⟩ w hch
      exact absurd (hl w hmem) hw
  -- sound
  · intro w hw
    by_cases hch : ((adjf u).foldl (relaxStep u) ⟨dist, rest⟩).dist w = dist w
    · rw [hch] at hw ⊢
      exact hI.sound w hw
    · obtain ⟨hval, _, hmem⟩ := foldRelax_changed u (adjf u) ⟨dist, rest⟩ w hch
      have hut : dist u ≠ ⊤ := by
        intro htop
        rw [hval] at hw
        dsimp only at hw
        rw [htop] at hw
        simp at hw
      rw [hval, untop_add_one hut]
      have hsu := hI.sound u hut
      unfold withinB
      rw [Bool.or_eq_true]
      right
      rw [List.any_eq_true]
      exact ⟨u, hu_ord, by rw [Bool.and_eq_true, decide_eq_true_eq]; exact ⟨hmem, hsu⟩⟩
  -- covered
  · intro w
    by_cases hwu : w = u
    · subst hwu
      right
      intro v hv
      have h1 := foldRelax_relaxed w (adjf w) ⟨dist, rest⟩ v hv
      have h2 := foldRelax_dist_u w (adjf w) ⟨dist, rest⟩
      rw [h2]
      exact h1
    · by_cases hwq : w ∈ ((adjf u).foldl (relaxStep u) ⟨dist, rest⟩).q
      · exact Or.inl hwq
      · right
        have hch : ((adjf u).foldl (relaxStep u) ⟨dist, rest⟩).dist w = dist w := by
          by_contra hch
          obtain ⟨_, hq, _⟩ := foldRelax_changed u (adjf u) ⟨dist, rest⟩ w hch
          exact hwq hq
        have hwold : w ∉ u :: rest := by
          intro hmem
          rcases List.mem_cons.1 hmem with h1 | h1
          · exact hwu h1
          · exact hwq (by rw [happ]; exact List.mem_append_left app h1)
        have hcov := hI.covered w
        rcases hcov with hcov | hcov
        · exact absurd hcov hwold
        · intro v hv
          rw [hch]
          calc ((adjf u).foldl (relaxStep u) ⟨dist, rest⟩).dist v
              ≤ dist v := foldRelax_dist_le u (adjf u) ⟨dist, rest⟩ v
            _ ≤ dist w + 1 := hcov v hv
  -- measure
  · unfold bfsMeasure at *
    dsimp only at hmeas ⊢
    simp only [List.length_cons]
    omega

theorem bfsRun_dist_le (adjf : String → List String) :
    ∀ fuel (s : BfsSt) (w : String),
      (bfsRun adjf fuel s).dist w ≤ s.dist w := by
  intro fuel
  induction fuel with
  | zero => intro s w; exact le_rfl
  | succ f ih =>
    intro s w
    obtain ⟨d, q⟩ := s
    cases q with
    | nil => exact le_rfl
    | cons u rest =>
      calc (bfsRun adjf (f + 1) ⟨d, u :: rest⟩).dist w
          = (bfsRun adjf f (bfsStep adjf u ⟨d, rest⟩)).dist w := rfl
        _ ≤ (bfsStep adjf u ⟨d, rest⟩).dist w := ih _ w
        _ ≤ d w := foldRelax_dist_le u (adjf u) ⟨d, rest⟩ w

theorem bfsRun_inv (order : List String) (adjf : String → List String)
    (seeds : List String) (hadj : AdjIn adjf order) (hN : order.Nodup) :
    ∀ fuel (s : BfsSt), BfsInv order adjf seeds s →
      BfsInv order adjf seeds (bfsRun adjf fuel s) := by
  intro fuel
  induction fuel with
  | zero => exact fun s hI => hI
  | succ f ih =>
    intro s hI
    obtain ⟨d, q⟩ := s
    cases q with
    | nil => exact hI
    | cons u rest =>
      have hstep := bfsStep_inv order adjf seeds hadj hN d u rest hI
      exact ih _ hstep.1

theorem bfsRun_runsOut (order : List String) (adjf : String → List String)
    (seeds : List String) (hadj : AdjIn adjf order) (hN : order.Nodup) :
    ∀ fuel (s : BfsSt), BfsInv order adjf seeds s →
      bfsMeasure order s < fuel → (bfsRun adjf fuel s).q = [] := by
  intro fuel
  induction fuel with
  | zero => intro s _ h; exact absurd h (Nat.not_lt_zero _)
  | succ f ih =>
    intro s hI hm
    obtain ⟨d, q⟩ := s
    cases q with
    | nil => rfl
    | cons u rest =>
      have hstep := bfsStep_inv order adjf seeds hadj hN d u rest hI
      exact ih _ hstep.1 (lt_of_lt_of_le hstep.2 (Nat.lt_succ_iff.mp hm))

theorem seedsOf_subset (order : List String) : ∀ x ∈ seedsOf order, x ∈ order := by
  intro x hx
  unfold seedsOf at hx
  split at hx
  · split at hx
    · exact List.take_subset 1 order hx
    · exact (List.mem_filter.1 hx).1
  · exact (List.mem_filter.1 hx).1

theorem seedsOf_ne_nil (order : List String) (h : order ≠ []) :
    seedsOf order ≠ [] := by
  unfold seedsOf
  split
  · split
    · cases order with
      | nil => exact absurd rfl h
      | cons a tl => simp
    · rename_i hsw
      simpa [List.isEmpty_iff] using hsw
  · rename_i hse
    simpa [List.isEmpty_iff] using hse

theorem mem_neighbors (edges : List (String × String)) (u v : String) :
    v ∈ neighbors edges u →
      ∃ e ∈ edges, (e.1 = u ∧ e.2 = v) ∨ (e.2 = u ∧ e.1 = v) := by
  unfold neighbors
  induction edges with
  | nil => intro h; cases h
  | cons e tl ih =>
    intro h
    rw [List.foldr_cons] at h
    by_cases h1 : e.1 = u
    · rw [if_pos h1] at h
      rcases List.mem_cons.1 h with h2 | h2
      · exact ⟨e, List.mem_cons_self e tl, Or.inl ⟨h1, h2.symm⟩⟩
      · obtain ⟨e2, he2, hc⟩ := ih h2
        exact ⟨e2, List.mem_cons_of_mem e he2, hc⟩
    · rw [if_neg h1] at h
      by_cases h2 : e.2 = u
      · rw [if_pos h2] at h
        rcases List.mem_cons.1 h with h3 | h3
        · exact ⟨e, List.mem_cons_self e tl, Or.inr ⟨h2, h3.symm⟩⟩
        · obtain ⟨e2, he2, hc⟩ := ih h3
          exact ⟨e2, List.mem_cons_of_mem e he2, hc⟩
      · rw [if_neg h2] at h
        obtain ⟨e2, he2, hc⟩ := ih h
        exact ⟨e2, List.mem_cons_of_mem e he2, hc⟩

theorem neighbors_adjIn (order : List String) (edges : List (String × String))
    (hE : ∀ e ∈ edges, e.1 ∈ order ∧ e.2 ∈ order) :
    AdjIn (neighbors edges) order := by
  intro u v hv
  obtain ⟨e, he, hc⟩ := mem_neighbors edges u v hv
  rcases hc with ⟨_, h2⟩ | ⟨_, h2⟩
  · exact h2 ▸ (hE e he).2
  · exact h2 ▸ (hE e he).1

theorem finSum_init (order : List String) (seeds : List String) :
    finSum order (initDist seeds) = 0 := by
  unfold finSum initDist
  induction order with
  | nil => rfl
  | cons a tl ih =>
    rw [List.map_cons, List.sum_cons, ih]
    split
    · rfl
    · rw [WithTop.untop'_top]

theorem initInv (order : List String) (adjf : String → List String)
    (seeds : List String) (hseeds : ∀ x ∈ seeds, x ∈ order) :
    BfsInv order adjf seeds ⟨initDist seeds, seeds⟩ := by
  have hval : ∀ v, initDist seeds v = if v ∈ seeds then (0 : HopDist) else ⊤ :=
    fun v => rfl
  refine ⟨hseeds, ?_, ?_, ?_, ?_⟩
  · intro v hv
    show initDist seeds v = ⊤
    rw [hval, if_neg (fun hmem => hv (hseeds v hmem))]
  · intro v hv
    show (initDist seeds v).untop' 0 + 1 + infCount order (initDist seeds) ≤
      order.length
    by_cases hs : v ∈ seeds
    · rw [hval, if_pos hs]
      have hz : WithTop.untop' 0 (0 : HopDist) = 0 := rfl
      rw [hz]
      have h1 : infCount order (initDist seeds) +
          List.countP (fun w => decide ¬(initDist seeds w = ⊤)) order =
            order.length := by
        unfold infCount
        have hh := List.length_eq_countP_add_countP
          (fun w => decide (initDist seeds w = ⊤)) order
        simp only [decide_eq_true_eq] at hh
        omega
      have h2 : 0 < List.countP (fun w => decide ¬(initDist seeds w = ⊤)) order := by
        rw [List.countP_pos_iff]
        refine ⟨v, hseeds v hs, ?_⟩
        rw [decide_eq_true_eq, hval, if_pos hs]
        simp
      omega
    · replace hv : initDist seeds v ≠ ⊤ := hv
      rw [hval, if_neg hs] at hv
      exact absurd rfl hv
  · intro v hv
    replace hv : initDist seeds v ≠ ⊤ := hv
    show withinB order adjf seeds ((initDist seeds v).untop' 0) v = true
    by_cases hs : v ∈ seeds
    · rw [hval, if_pos hs]
      have hz : WithTop.untop' 0 (0 : HopDist) = 0 := rfl
      rw [hz]
      unfold withinB
      simpa using hs
    · rw [hval, if_neg hs] at hv
      exact absurd rfl hv
  · intro u
    by_cases hs : u ∈ seeds
    · exact Or.inl hs
    · right
      intro v _
      show initDist seeds v ≤ initDist seeds u + 1
      rw [hval u, if_neg hs]
      exact le_top

theorem seedsOf_length_le (order : List String) :
    (seedsOf order).length ≤ order.length := by
  unfold seedsOf
  split
  · split
    · rw [List.length_take]
      omega
    · exact List.length_filter_le _ _
  · exact List.length_filter_le _ _

theorem init_measure_lt (order : List String) :
    bfsMeasure order ⟨initDist (seedsOf order), seedsOf order⟩ <
      fuelFor order := by
  unfold bfsMeasure fuelFor
  have h1 : infCount order (initDist (seedsOf order)) ≤ order.length :=
    List.countP_le_length _
  have h2 := finSum_init order (seedsOf order)
  have h3 := seedsOf_length_le order
  have h4 : infCount order (initDist (seedsOf order)) *
        (order.length * order.length + 1) ≤
      order.length * (order.length * order.length + 1) :=
    Nat.mul_le_mul_right _ h1
  dsimp only
  omega

theorem bfsFinal_inv (order : List String) (edges : List (String × String))
    (hN : order.Nodup) (hE : ∀ e ∈ edges, e.1 ∈ order ∧ e.2 ∈ order) :
    BfsInv order (neighbors edges) (seedsOf order) (bfsFinal order edges) ∧
      (bfsFinal order edges).q = [] := by
  have hadj := neighbors_adjIn order edges hE
  have hinit := initInv order (neighbors edges) (seedsOf order) (seedsOf_subset order)
  constructor
  · exact bfsRun_inv order (neighbors edges) (seedsOf order) hadj hN
      (fuelFor order) _ hinit
  · exact bfsRun_runsOut order (neighbors edges) (seedsOf order) hadj hN
      (fuelFor order) _ hinit (init_measure_lt order)

theorem bfsFinal_dist_seed (order : List String) (edges : List (String × String))
    (s : String) (hs : s ∈ seedsOf order) :
    (bfsFinal order edges).dist s = 0 := by
  have h1 : (bfsFinal order edges).dist s ≤ initDist (seedsOf order) s :=
    bfsRun_dist_le (neighbors edges) (fuelFor order) _ s
  have h2 : initDist (seedsOf order) s = 0 := by
    unfold initDist
    rw [if_pos hs]
  rw [h2] at h1
  exact nonpos_iff_eq_zero.1 h1

theorem withinB_mono (order : List String) (adjf : String → List String)
    (seeds : List String) {j k : ℕ} (hjk : j ≤ k) :
    ∀ v, withinB order adjf seeds j v = true →
      withinB order adjf seeds k v = true := by
  induction k with
  | zero =>
    intro v h
    have : j = 0 := by omega
    exact this ▸ h
  | succ k ih =>
    intro v h
    by_cases hj : j = k + 1
    · exact hj ▸ h
    · have h2 := ih (by omega) v h
      unfold withinB
      rw [Bool.or_eq_true]
      exact Or.inl h2

theorem final_dist_le (order : List String) (edges : List (String × String))
    (hN : order.Nodup) (hE : ∀ e ∈ edges, e.1 ∈ order ∧ e.2 ∈ order) :
    ∀ (k : ℕ) (v : String),
      withinB order (neighbors edges) (seedsOf order) k v = true →
      (bfsFinal order edges).dist v ≠ ⊤ ∧
        ((bfsFinal order edges).dist v).untop' 0 ≤ k := by
  obtain ⟨hinv, hq⟩ := bfsFinal_inv order edges hN hE
  have hrel : ∀ u v, v ∈ neighbors edges u →
      (bfsFinal order edges).dist v ≤ (bfsFinal order edges).dist u + 1 := by
    intro u v hv
    rcases hinv.covered u with hc | hc
    · rw [hq] at hc
      cases hc
    · exact hc v hv
  intro k
  induction k with
  | zero =>
    intro v h
    unfold withinB at h
    rw [decide_eq_true_eq] at h
    have := bfsFinal_dist_seed order edges v h
    rw [this]
    have hz : WithTop.untop' 0 (0 : HopDist) = 0 := rfl
    exact ⟨by simp, by rw [hz]⟩
  | succ k ih =>
    intro v h
    unfold withinB at h
    rw [Bool.or_eq_true] at h
    rcases h with h | h
    · obtain ⟨h1, h2⟩ := ih v h
      exact ⟨h1, by omega⟩
    · rw [List.any_eq_true] at h
      obtain ⟨u, _, hu⟩ := h
      rw [Bool.and_eq_true, decide_eq_true_eq] at hu
      obtain ⟨hvadj, hwithin⟩ := hu
      obtain ⟨hu1, hu2⟩ := ih u hwithin
      have h3 := hrel u v hvadj
      have h4 : (bfsFinal order edges).dist u + 1 ≠ ⊤ := add_one_ne_top hu1
      have h5 : (bfsFinal order edges).dist v ≠ ⊤ := by
        intro htop
        rw [htop] at h3
        exact h4 (top_le_iff.1 h3)
      refine ⟨h5, ?_⟩
      have h6 := untop_add_one hu1
      obtain ⟨a, ha⟩ := WithTop.ne_top_iff_exists.1 h5
      obtain ⟨b, hb⟩ := WithTop.ne_top_iff_exists.1 h4
      rw [← ha, ← hb, WithTop.coe_le_coe] at h3
      rw [← ha, WithTop.untop'_coe]
      rw [← hb, WithTop.untop'_coe] at h6
      omega

theorem bfsFinal_dist_char (order : List String) (edges : List (String × String))
    (hN : order.Nodup) (hE : ∀ e ∈ edges, e.1 ∈ order ∧ e.2 ∈ order) (v : String) :
    ((bfsFinal order edges).dist v ≠ ⊤ →
      withinB order (neighbors edges) (seedsOf order)
          (((bfsFinal order edges).dist v).untop' 0) v = true ∧
        ∀ j, withinB order (neighbors edges) (seedsOf order) j v = true →
          ((bfsFinal order edges).dist v).untop' 0 ≤ j) ∧
    ((bfsFinal order edges).dist v = ⊤ →
      ∀ j, withinB order (neighbors edges) (seedsOf order) j v = false) := by
  obtain ⟨hinv, _⟩ := bfsFinal_inv order edges hN hE
  constructor
  · intro hv
    refine ⟨hinv.sound v hv, ?_⟩
    intro j hj
    exact (final_dist_le order edges hN hE j v hj).2
  · intro hv j
    by_contra hj
    rw [Bool.not_eq_false] at hj
    exact (final_dist_le order edges hN hE j v hj).1 hv

theorem pyMin_le_mem (l : List ℕ) : ∀ x ∈ l, pyMin l ≤ x := by
  unfold pyMin
  cases l with
  | nil => intro x hx; cases hx
  | cons a tl =>
    have hgen : ∀ (tl : List ℕ) (a : ℕ),
        (tl.foldl min a ≤ a ∧ ∀ x ∈ tl, tl.foldl min a ≤ x) := by
      intro tl
      induction tl with
      | nil => exact fun a => ⟨le_rfl, fun x hx => absurd hx (List.not_mem_nil x)⟩
      | cons b tb ih =>
        intro a
        refine ⟨?_, ?_⟩
        · rw [List.foldl_cons]
          exact le_trans (ih (min a b)).1 (min_le_left a b)
        · intro x hx
          rw [List.foldl_cons]
          rcases List.mem_cons.1 hx with hx | hx
          · rw [hx]
            exact le_trans (ih (min a b)).1 (min_le_right a b)
          · exact (ih (min a b)).2 x hx
    intro x hx
    rcases List.mem_cons.1 hx with hx | hx
    · exact hx ▸ (hgen tl a).1
    · exact (hgen tl a).2 x hx

theorem pyMax_ge_mem (l : List ℕ) : ∀ x ∈ l, x ≤ pyMax l := by
  unfold pyMax
  cases l with
  | nil => intro x hx; cases hx
  | cons a tl =>
    have hgen : ∀ (tl : List ℕ) (a : ℕ),
        (a ≤ tl.foldl max a ∧ ∀ x ∈ tl, x ≤ tl.foldl max a) := by
      intro tl
      induction tl with
      | nil => exact fun a => ⟨le_rfl, fun x hx => absurd hx (List.not_mem_nil x)⟩
      | cons b tb ih =>
        intro a
        refine ⟨?_, ?_⟩
        · rw [List.foldl_cons]
          exact le_trans (le_max_left a b) (ih (max a b)).1
        · intro x hx
          rw [List.foldl_cons]
          rcases List.mem_cons.1 hx with hx | hx
          · rw [hx]
            exact le_trans (le_max_right a b) (ih (max a b)).1
          · exact (ih (max a b)).2 x hx
    intro x hx
    rcases List.mem_cons.1 hx with hx | hx
    · exact hx ▸ (hgen tl a).1
    · exact (hgen tl a).2 x hx

theorem pyMax_mem (l : List ℕ) (h : l ≠ []) : pyMax l ∈ l := by
  cases l with
  | nil => exact absurd rfl h
  | cons a tl =>
    show tl.foldl max a ∈ a :: tl
    have hgen : ∀ (tl : List ℕ) (a : ℕ),
        tl.foldl max a = a ∨ tl.foldl max a ∈ tl := by
      intro tl
      induction tl with
      | nil => exact fun a => Or.inl rfl
      | cons b tb ih =>
        intro a
        rcases ih (max a b) with h1 | h1
        · rcases max_choice a b with h2 | h2
          · exact Or.inl (by rw [List.foldl_cons, h1, h2])
          · exact Or.inr (by rw [List.foldl_cons, h1, h2]; exact List.mem_cons_self b tb)
        · exact Or.inr (List.mem_cons_of_mem b h1)
    rcases hgen tl a with h1 | h1
    · rw [h1]
      exact List.mem_cons_self a tl
    · exact List.mem_cons_of_mem a h1

theorem minD_eq_zero (order : List String) (edges : List (String × String)) :
    pyMin (finiteVals order (bfsFinal order edges).dist) = 0 := by
  by_cases horder : order = []
  · subst horder
    rfl
  · have hne : seedsOf order ≠ [] := seedsOf_ne_nil order horder
    obtain ⟨s, hs⟩ : ∃ s, s ∈ seedsOf order := by
      cases hseed : seedsOf order with
      | nil => exact absurd hseed hne
      | cons x xs => exact ⟨x, hseed ▸ List.mem_cons_self x xs⟩
    have hs0 := bfsFinal_dist_seed order edges s hs
    have hzero : 0 ∈ finiteVals order (bfsFinal order edges).dist := by
      unfold finiteVals
      rw [List.mem_map]
      refine ⟨s, ?_, by rw [hs0]; rfl⟩
      rw [List.mem_filter]
      refine ⟨seedsOf_subset order s hs, ?_⟩
      rw [hs0]
      simp
    exact Nat.le_zero.1 (pyMin_le_mem _ 0 hzero)

theorem preLayer_untop (order : List String) (edges : List (String × String))
    (n : String) :
    preLayer order edges n = ((bfsFinal order edges).dist n).untop' 0 := by
  unfold preLayer
  rw [minD_eq_zero order edges]
  split
  · rename_i h
    rw [h, WithTop.untop'_top]
  · omega

/-- C2: in `assign_layers` — with seeds being all nodes classified
server, else all nodes classified switch, else the single node enumerated
first in a non-empty graph (`seedsOf`) — the layer map taken before the
workstation post-processing and re-indexing steps (`preLayer`) assigns to
every node reachable from some seed exactly the minimum hop-count
distance to its nearest seed (`withinB k v` holds at `k = preLayer v` and
at no smaller `k`; in particular every seed gets 0), and assigns 0 to
every node unreachable from all seeds; an empty node set yields an empty
layer map.  The hypotheses (no duplicate node, edge endpoints drawn from
the node set) are exactly the conditions under which the source function
runs without raising `KeyError`. -/
theorem claim_C2_assign_layers_bfs (order : List String)
    (edges : List (String × String)) (hN : order.Nodup)
    (hE : ∀ e ∈ edges, e.1 ∈ order ∧ e.2 ∈ order) :
    (∀ s ∈ seedsOf order, preLayer order edges s = 0) ∧
    (∀ v k, withinB order (neighbors edges) (seedsOf order) k v = true →
      withinB order (neighbors edges) (seedsOf order)
          (preLayer order edges v) v = true ∧
        preLayer order edges v ≤ k) ∧
    (∀ v, (∀ k, withinB order (neighbors edges) (seedsOf order) k v = false) →
      preLayer order edges v = 0) ∧
    (order = [] → order.map (fun n => (n, assign_layers order edges n)) = []) := by
  refine ⟨?_, ?_, ?_, ?_⟩
  · intro s hs
    rw [preLayer_untop, bfsFinal_dist_seed order edges s hs]
    rfl
  · intro v k hk
    obtain ⟨hne, hle⟩ := final_dist_le order edges hN hE k v hk
    obtain ⟨hchar, _⟩ := bfsFinal_dist_char order edges hN hE v
    obtain ⟨hwithin, hmin⟩ := hchar hne
    rw [preLayer_untop]
    exact ⟨hwithin, hmin k hk⟩
  · intro v hv
    rw [preLayer_untop]
    by_cases hne : (bfsFinal order edges).dist v = ⊤
    · rw [hne, WithTop.untop'_top]
    · obtain ⟨hchar, _⟩ := bfsFinal_dist_char order edges hN hE v
      obtain ⟨hwithin, _⟩ := hchar hne
      rw [hv] at hwithin
      cases hwithin
  · intro h
    subst h
    rfl

theorem claim_C2_witness :
    preLayer ["ser-1", "x1", "y1", "z1"] [("ser-1", "x1"), ("y1", "z1")]
        "ser-1" = 0 :=
  (claim_C2_assign_layers_bfs ["ser-1", "x1", "y1", "z1"]
    [("ser-1", "x1"), ("y1", "z1")] (by decide) (by decide)).1 "ser-1" (by decide)

theorem indexOf_le_indexOf_of_sorted {L : List ℕ} (hs : L.Sorted (· ≤ ·))
    (hnd : L.Nodup) {a b : ℕ} (ha : a ∈ L) (hb : b ∈ L) (hab : a ≤ b) :
    L.indexOf a ≤ L.indexOf b := by
  induction L with
  | nil => cases ha
  | cons x tl ih =>
    by_cases hax : a = x
    · rw [hax, List.indexOf_cons_self]
      omega
    · have hatl : a ∈ tl := by
        rcases List.mem_cons.1 ha with h | h
        · exact absurd h hax
        · exact h
      have hbx : b ≠ x := by
        intro hbx
        have hxa : x ≤ a := (List.sorted_cons.1 hs).1 a hatl
        exact hax (le_antisymm (hab.trans hbx.le) hxa)
      have hbtl : b ∈ tl := by
        rcases List.mem_cons.1 hb with h | h
        · exact absurd h hbx
        · exact h
      rw [List.indexOf_cons_ne tl (fun h => hax h.symm),
        List.indexOf_cons_ne tl (fun h => hbx h.symm)]
      exact Nat.succ_le_succ (ih (List.sorted_cons.1 hs).2
        (List.nodup_cons.1 hnd).2 hatl hbtl)

theorem layerVals_sorted (order : List String) (edges : List (String × String)) :
    (layerVals order edges).Sorted (· ≤ ·) :=
  List.sorted_insertionSort _ _

theorem layerVals_nodup (order : List String) (edges : List (String × String)) :
    (layerVals order edges).Nodup :=
  (List.perm_insertionSort _ _).symm.nodup (List.nodup_dedup _)

theorem mem_layerVals (order : List String) (edges : List (String × String))
    (x : ℕ) :
    x ∈ layerVals order edges ↔ ∃ n ∈ order, pushedLayer order edges n = x := by
  unfold layerVals
  rw [(List.perm_insertionSort (· ≤ ·) _).mem_iff, List.mem_dedup, List.mem_map]

theorem pushedLayer_le_maxPre (order : List String)
    (edges : List (String × String)) (n : String) (hn : n ∈ order) :
    pushedLayer order edges n ≤ maxPre order edges := by
  have hpre : preLayer order edges n ≤ maxPre order edges :=
    pyMax_ge_mem _ _ (List.mem_map_of_mem _ hn)
  unfold pushedLayer
  split
  · omega
  · exact hpre

theorem pushedLayer_workstation (order : List String)
    (edges : List (String × String)) (n : String) (hn : n ∈ order)
    (hw : classify_node n = "workstation") :
    pushedLayer order edges n = maxPre order edges := by
  have hpre : preLayer order edges n ≤ maxPre order edges :=
    pyMax_ge_mem _ _ (List.mem_map_of_mem _ hn)
  unfold pushedLayer
  rw [if_pos hw]
  omega

/-- C3: in the layer map returned by `assign_layers`, every node
classified `workstation` ends on the layer equal to the maximum layer
value present in the returned map (over the node set). -/
theorem claim_C3_workstation_max (order : List String)
    (edges : List (String × String)) (n : String) (hn : n ∈ order)
    (hw : classify_node n = "workstation") :
    assign_layers order edges n =
      pyMax (order.map (assign_layers order edges)) := by
  have hpn : pushedLayer order edges n = maxPre order edges :=
    pushedLayer_workstation order edges n hn hw
  have hnv : pushedLayer order edges n ∈ layerVals order edges :=
    (mem_layerVals order edges _).2 ⟨n, hn, rfl⟩
  have hmono : ∀ m ∈ order,
      assign_layers order edges m ≤ assign_layers order edges n := by
    intro m hm
    unfold assign_layers
    exact indexOf_le_indexOf_of_sorted (layerVals_sorted order edges)
      (layerVals_nodup order edges)
      ((mem_layerVals order edges _).2 ⟨m, hm, rfl⟩) hnv
      (by rw [hpn]; exact pushedLayer_le_maxPre order edges m hm)
  refine le_antisymm ?_ ?_
  · exact pyMax_ge_mem _ _ (List.mem_map_of_mem _ hn)
  · have hne : order.map (assign_layers order edges) ≠ [] := by
      intro h
      rw [List.map_eq_nil_iff] at h
      rw [h] at hn
      cases hn
    obtain ⟨m, hm, hmx⟩ := List.mem_map.1 (pyMax_mem _ hne)
    rw [← hmx]
    exact hmono m hm

theorem claim_C3_witness :
    assign_layers ["sw-1", "wss-1"] [("sw-1", "wss-1")] "wss-1" =
      pyMax (["sw-1", "wss-1"].map
        (assign_layers ["sw-1", "wss-1"] [("sw-1", "wss-1")])) :=
  claim_C3_workstation_max _ _ _ (by decide) (by decide)

/-- C4: the set of values of the final layer map over the node set is
exactly `{0, ..., k-1}` where `k` is the number of distinct layer values
(`layerVals`): every assigned layer is below `k`, every index below `k`
is attained, and `k = 0` exactly when the node set is empty. -/
theorem claim_C4_layer_density (order : List String)
    (edges : List (String × String)) :
    (∀ n ∈ order,
        assign_layers order edges n < (layerVals order edges).length) ∧
    (∀ i, i < (layerVals order edges).length →
        ∃ n ∈ order, assign_layers order edges n = i) ∧
    ((layerVals order edges).length = 0 ↔ order = []) := by
  refine ⟨?_, ?_, ?_, ?_⟩
  · intro n hn
    unfold assign_layers
    exact List.indexOf_lt_length.2 ((mem_layerVals order edges _).2 ⟨n, hn, rfl⟩)
  · intro i hi
    have hmem : (layerVals order edges)[i] ∈ layerVals order edges :=
      List.getElem_mem hi
    obtain ⟨n, hn, hpn⟩ := (mem_layerVals order edges _).1 hmem
    refine ⟨n, hn, ?_⟩
    unfold assign_layers
    rw [hpn]
    exact List.indexOf_getElem (layerVals_nodup order edges) i hi
  · intro h
    by_contra horder
    cases hord : order with
    | nil => exact horder hord
    | cons a tl =>
      have : pushedLayer order edges a ∈ layerVals order edges :=
        (mem_layerVals order edges _).2 ⟨a, by rw [hord]; exact List.mem_cons_self a tl, rfl⟩
      have := List.indexOf_lt_length.2 this
      omega
  · intro h
    subst h
    rfl

theorem claim_C4_witness :
    assign_layers ["sw-1", "wss-1"] [("sw-1", "wss-1")] "sw-1" <
      (layerVals ["sw-1", "wss-1"] [("sw-1", "wss-1")]).length :=
  (claim_C4_layer_density _ _).1 "sw-1" (by decide)

theorem charOfNat_toNat {n : ℕ} (h : n.isValidChar) : (Char.ofNat n).toNat = n := by
  simp [Char.ofNat, h, Char.ofNatAux, Char.toNat, BitVec.toNat_ofNatLt, UInt32.toNat]

theorem charToLower_idem (c : Char) : c.toLower.toLower = c.toLower := by
  simp only [Char.toLower]
  by_cases h : c.toNat ≥ 65 ∧ c.toNat ≤ 90
  · rw [if_pos h]
    have hv : (c.toNat + 32).isValidChar := by
      unfold Nat.isValidChar
      omega
    have h2 : (Char.ofNat (c.toNat + 32)).toNat = c.toNat + 32 := charOfNat_toNat hv
    rw [if_neg]
    rw [h2]
    omega
  · rw [if_neg h, if_neg h]

theorem strLower_idem (s : String) : strLower (strLower s) = strLower s := by
  unfold strLower
  have hdata : (String.mk (s.data.map Char.toLower)).data =
      s.data.map Char.toLower := rfl
  rw [hdata, List.map_map]
  have : ∀ l : List Char, l.map (Char.toLower ∘ Char.toLower) = l.map Char.toLower :=
    fun l => List.map_congr_left (fun c _ => charToLower_idem c)
  rw [this]

theorem classify_node_lower (s : String) :
    classify_node (strLower s) = classify_node s := by
  unfold classify_node
  rw [strLower_idem]

/-- C5: `classify_node` is total (every string maps to one of the four
roles), factors through lower-casing (case-insensitive: classifying the
lower-cased identifier gives the same role), and evaluates its rules in
the fixed order switch → workstation → server → other: the switch rule
wins over the server heuristics, and an identifier matching both the
workstation keyword (`"wss"`) and the server keyword (`"tool"`) but not
the switch rule resolves to workstation. -/
theorem claim_C5_classify_order (s : String) :
    (classify_node s = "switch" ∨ classify_node s = "workstation" ∨
      classify_node s = "server" ∨ classify_node s = "other") ∧
    classify_node (strLower s) = classify_node s ∧
    (switchCond (strLower s) = true → classify_node s = "switch") ∧
    (switchCond (strLower s) = false → workstationCond (strLower s) = true →
      classify_node s = "workstation") ∧
    (switchCond (strLower s) = false → workstationCond (strLower s) = false →
      serverCond (strLower s) = true → classify_node s = "server") ∧
    (switchCond (strLower s) = false → workstationCond (strLower s) = false →
      serverCond (strLower s) = false → classify_node s = "other") ∧
    (switchCond (strLower s) = true → serverCond (strLower s) = true →
      classify_node s = "switch") ∧
    (switchCond (strLower s) = false → strIn "wss" (strLower s) = true →
      strIn "tool" (strLower s) = true → classify_node s = "workstation") := by
  refine ⟨?_, classify_node_lower s, ?_, ?_, ?_, ?_, ?_, ?_⟩
  · by_cases h1 : switchCond (strLower s) <;>
      by_cases h2 : workstationCond (strLower s) <;>
      by_cases h3 : serverCond (strLower s) <;>
      simp [classify_node, h1, h2, h3]
  · intro h1
    simp [classify_node, h1]
  · intro h1 h2
    simp [classify_node, h1, h2]
  · intro h1 h2 h3
    simp [classify_node, h1, h2, h3]
  · intro h1 h2 h3
    simp [classify_node, h1, h2, h3]
  · intro h1 _
    simp [classify_node, h1]
  · intro h1 h2 _
    have hw : workstationCond (strLower s) = true := by
      unfold workstationCond
      rw [h2]
      rfl
    simp [classify_node, h1, hw]

theorem claim_C5_witness :
    classify_node "sw-tool" = "switch" ∧
      classify_node "BUT-WSS-TOOL" = "workstation" :=
  ⟨(claim_C5_classify_order "sw-tool").2.2.2.2.2.2.1 (by decide) (by decide),
   (claim_C5_classify_order "BUT-WSS-TOOL").2.2.2.2.2.2.2
     (by decide) (by decide) (by decide)⟩

theorem sortPair_comm (a b : String) : sortPair a b = sortPair b a := by
  unfold sortPair
  rcases le_total a b with h | h
  · rw [if_pos h]
    by_cases hba : b ≤ a
    · rw [if_pos hba, le_antisymm h hba]
    · rw [if_neg hba]
  · rw [if_pos h]
    by_cases hab : a ≤ b
    · rw [if_pos hab, le_antisymm hab h]
    · rw [if_neg hab]

theorem sortPair_lt (a b : String) (hne : a ≠ b) :
    (sortPair a b).1 < (sortPair a b).2 := by
  unfold sortPair
  rcases le_or_lt a b with h | h
  · rw [if_pos h]
    exact lt_of_le_of_ne h hne
  · rw [if_neg (not_le.2 h)]
    exact h

theorem insert_insert_idem {α : Type} [DecidableEq α] (x y : α) (s : Finset α) :
    insert y (insert x (insert y (insert x s))) = insert y (insert x s) := by
  rw [Finset.Insert.comm y x (insert y (insert x s)), Finset.insert_idem,
    Finset.Insert.comm x y (insert x s), Finset.insert_idem]

/-- C6: processing the input row `(a, b)` and the row `(b, a)` produce
exactly the same node-set/edge-set state; every edge the row adds is
stored as the lexicographically sorted tuple of its two normalized
endpoints (first component strictly below second); and processing the
same row twice adds nothing new (duplicate rows collapse to one edge). -/
theorem claim_C6_row_symmetry (st : Finset String × Finset (String × String))
    (a b : String) :
    processRow st (a, b) = processRow st (b, a) ∧
    (∀ e ∈ (processRow st (a, b)).2, e ∉ st.2 → e.1 < e.2) ∧
    processRow (processRow st (a, b)) (a, b) = processRow st (a, b) := by
  by_cases hab : a = "" ∨ b = ""
  · have c1 : (decide (a = "") || decide (b = "")) = true := by
      rcases hab with h | h <;> simp [h]
    have c2 : (decide (b = "") || decide (a = "")) = true := by
      rcases hab with h | h <;> simp [h]
    refine ⟨?_, ?_, ?_⟩
    · show (if _ then st else _) = (if _ then st else _)
      rw [if_pos c1, if_pos c2]
    · intro e he hnew
      rw [show processRow st (a, b) = st from by
        show (if _ then st else _) = st
        rw [if_pos c1]] at he
      exact absurd he hnew
    · rw [show processRow st (a, b) = st from by
        show (if _ then st else _) = st
        rw [if_pos c1]]
      show (if _ then st else _) = st
      rw [if_pos c1]
  · push_neg at hab
    have c1 : ¬((decide (a = "") || decide (b = "")) = true) := by
      simp [hab.1, hab.2]
    have c2 : ¬((decide (b = "") || decide (a = "")) = true) := by
      simp [hab.1, hab.2]
    by_cases hskip : normalize_device_token a = "" ∨
        normalize_device_token b = "" ∨
        normalize_device_token a = normalize_device_token b
    · have d1 : (decide (normalize_device_token a = "") ||
          decide (normalize_device_token b = "") ||
          decide (normalize_device_token a = normalize_device_token b)) = true := by
        rcases hskip with h | h | h <;> simp [h]
      have d2 : (decide (normalize_device_token b = "") ||
          decide (normalize_device_token a = "") ||
          decide (normalize_device_token b = normalize_device_token a)) = true := by
        rcases hskip with h | h | h <;> simp [h]
      have hstop : processRow st (a, b) = st := by
        show (if _ then st else if _ then st else _) = st
        rw [if_neg c1, if_pos d1]
      refine ⟨?_, ?_, ?_⟩
      · rw [hstop]
        show st = (if _ then st else if _ then st else _)
        rw [if_neg c2, if_pos d2]
      · intro e he hnew
        rw [hstop] at he
        exact absurd he hnew
      · rw [hstop, hstop]
    · push_neg at hskip
      have d1 : ¬((decide (normalize_device_token a = "") ||
          decide (normalize_device_token b = "") ||
          decide (normalize_device_token a = normalize_device_token b)) = true) := by
        simp [hskip.1, hskip.2.1, hskip.2.2]
      have d2 : ¬((decide (normalize_device_token b = "") ||
          decide (normalize_device_token a = "") ||
          decide (normalize_device_token b = normalize_device_token a)) = true) := by
        have hne : normalize_device_token b ≠ normalize_device_token a :=
          fun h => hskip.2.2 h.symm
        simp [hskip.1, hskip.2.1, hne]
      have hgo : processRow st (a, b) =
          (insert (normalize_device_token b)
             (insert (normalize_device_token a) st.1),
           insert (sortPair (normalize_device_token a)
             (normalize_device_token b)) st.2) := by
        show (if _ then st else if _ then st else _) = _
        rw [if_neg c1, if_neg d1]
      have hgo2 : processRow st (b, a) =
          (insert (normalize_device_token a)
             (insert (normalize_device_token b) st.1),
           insert (sortPair (normalize_device_token b)
             (normalize_device_token a)) st.2) := by
        show (if _ then st else if _ then st else _) = _
        rw [if_neg c2, if_neg d2]
      refine ⟨?_, ?_, ?_⟩
      · rw [hgo, hgo2, Finset.Insert.comm, sortPair_comm]
      · intro e he hnew
        rw [hgo] at he
        rcases Finset.mem_insert.1 he with h | h
        · rw [h]
          exact sortPair_lt _ _ hskip.2.2
        · exact absurd h hnew
      · have hgo3 : processRow (processRow st (a, b)) (a, b) =
            (insert (normalize_device_token b)
               (insert (normalize_device_token a) (processRow st (a, b)).1),
             insert (sortPair (normalize_device_token a)
               (normalize_device_token b)) (processRow st (a, b)).2) := by
          show (if _ then _ else if _ then _ else _) = _
          rw [if_neg c1, if_neg d1]
        rw [hgo3, hgo]
        dsimp only
        rw [insert_insert_idem, Finset.insert_idem]

theorem claim_C6_witness :
    processRow (∅, ∅) ("A", "B") = processRow (∅, ∅) ("B", "A") ∧
      (("A", "B") : String × String).1 < ("A", "B").2 := by
  have hle : ("A" : String) ≤ "B" := by
    rw [String.le_iff_toList_le]
    decide
  have hsp : sortPair (normalize_device_token "A") (normalize_device_token "B") =
      ("A", "B") := by
    have h1 : normalize_device_token "A" = "A" := by decide
    have h2 : normalize_device_token "B" = "B" := by decide
    rw [h1, h2]
    unfold sortPair
    rw [if_pos hle]
  have he2 : (processRow (∅, ∅) ("A", "B")).2 =
      insert (("A", "B") : String × String) ∅ := by
    show (if _ then ((∅, ∅) : Finset String × Finset (String × String))
      else if _ then (∅, ∅) else _).2 = _
    rw [if_neg (by decide), if_neg (by decide)]
    rw [hsp]
  refine ⟨(claim_C6_row_symmetry (∅, ∅) "A" "B").1,
    (claim_C6_row_symmetry (∅, ∅) "A" "B").2.1 ("A", "B") ?_ ?_⟩
  · rw [he2]
    exact Finset.mem_insert_self _ _
  · exact Finset.not_mem_empty _

theorem foldl_max_perm {l₁ l₂ : List ℕ} (h : l₁.Perm l₂) :
    ∀ a, l₁.foldl max a = l₂.foldl max a := by
  induction h with
  | nil => exact fun a => rfl
  | cons x h ih =>
    intro a
    rw [List.foldl_cons, List.foldl_cons, ih]
  | swap x y l =>
    intro a
    rw [List.foldl_cons, List.foldl_cons, List.foldl_cons, List.foldl_cons,
      max_assoc, max_comm y x, ← max_assoc]
  | trans h1 h2 ih1 ih2 =>
    intro a
    rw [ih1, ih2]

theorem pyMax_eq_foldl (l : List ℕ) (h : l ≠ []) : pyMax l = l.foldl max 0 := by
  cases l with
  | nil => exact absurd rfl h
  | cons x xs =>
    show xs.foldl max x = (x :: xs).foldl max 0
    rw [List.foldl_cons, Nat.zero_max]

theorem pyMax_perm {l₁ l₂ : List ℕ} (h : l₁.Perm l₂) : pyMax l₁ = pyMax l₂ := by
  cases hl : l₁ with
  | nil =>
    rw [hl] at h
    rw [← h.nil_eq]
  | cons x xs =>
    have h1 : l₁ ≠ [] := by rw [hl]; exact List.cons_ne_nil x xs
    have h2 : l₂ ≠ [] := by
      intro he
      rw [he] at h
      rw [h.eq_nil] at hl
      cases hl
    rw [← hl, pyMax_eq_foldl l₁ h1, pyMax_eq_foldl l₂ h2, foldl_max_perm h]

theorem orderedCols_length (lm : String → ℕ) (order : List String) :
    (orderedCols lm order).length = ((order.map lm).dedup).length := by
  unfold orderedCols colIndices
  rw [List.length_map, (List.perm_insertionSort (· ≤ ·) _).length_eq]

theorem maxColLen_eq_spec (lm : String → ℕ) (order : List String) :
    maxColLen (orderedCols lm order) = maxColSpec lm order := by
  have hmap : (orderedCols lm order).map List.length =
      (List.insertionSort (· ≤ ·) ((order.map lm).dedup)).map
        (fun i => (order.filter (fun n => lm n == i)).length) := by
    unfold orderedCols colIndices colOf
    rw [List.map_map]
    apply List.map_congr_left
    intro i _
    show (List.insertionSort nodeKeyLe _).length = _
    rw [(List.perm_insertionSort nodeKeyLe _).length_eq]
  have hperm : ((orderedCols lm order).map List.length).Perm
      (colSizesSpec lm order) := by
    rw [hmap]
    unfold colSizesSpec
    exact (List.perm_insertionSort (· ≤ ·) _).map _
  unfold maxColLen maxColSpec
  cases hc : (orderedCols lm order).map List.length with
  | nil =>
    rw [hc] at hperm
    rw [if_pos hperm.nil_eq.symm]
  | cons x xs =>
    rw [hc] at hperm
    have hne : colSizesSpec lm order ≠ [] := by
      intro he
      rw [he] at hperm
      exact List.cons_ne_nil x xs hperm.eq_nil
    rw [if_neg hne]
    show pyMax (x :: xs) = pyMax (colSizesSpec lm order)
    exact pyMax_perm hperm

set_option maxRecDepth 4000 in
/-- C8: the canvas width returned by the layout equals
`left margin × 2 + (number of columns − 1) × horizontal step + box width`
(margins 80, step 240, box 180), where the number of columns is the
number of distinct layer values over the node set; the canvas height
equals `top margin × 2 + (max column size − 1) × vertical step + box
height` (step 110, box 44) with the max column size taken as 1 when
there are no columns.  Subtraction is truncated at 0 (the source's
`max(0, k - 1)`), which is also why the width formula holds verbatim in
the zero-column (empty node set) case, where it yields 340. -/
theorem claim_C8_canvas_formulas (lm : String → ℕ) (order : List String) :
    canvasW lm order =
      80 * 2 + (((order.map lm).dedup).length - 1) * 240 + 180 ∧
    canvasH lm order = 80 * 2 + (maxColSpec lm order - 1) * 110 + 44 ∧
    (order = [] → ((order.map lm).dedup).length = 0 ∧
      canvasW lm order = 340 ∧ canvasH lm order = 204) := by
  refine ⟨?_, ?_, ?_⟩
  · unfold canvasW
    rw [orderedCols_length]
  · unfold canvasH
    rw [maxColLen_eq_spec]
  · intro h
    subst h
    exact ⟨rfl, rfl, rfl⟩

theorem claim_C8_witness :
    (([] : List String) = []) ∧ canvasW (fun _ => 0) [] = 340 :=
  ⟨rfl, ((claim_C8_canvas_formulas (fun _ => 0) []).2.2 rfl).2.1⟩

/-- C7: the driver returns status 2 with a diagnostic and no artifacts
when the input file is missing (before any parsing — the model never
inspects the parse result in that branch); status 1 with a diagnostic
and no artifacts when zero edges are parsed; status 0 exactly when the
file exists and at least one edge is parsed; and, in a default run (the
`--no-dot` flag unset), both artifacts are written exactly in the
status-0 case.  The three statuses 2, 1, 0 are pairwise distinct. -/
theorem claim_C7_driver_statuses (csvExists : Bool) (order : List String)
    (edges : List (String × String)) (noDot : Bool) :
    ((mainModel csvExists order edges noDot).1 =
      if csvExists = false then 2 else if edges.isEmpty then 1 else 0) ∧
    (csvExists = false →
      mainModel csvExists order edges noDot =
        (2, some "ERR: CSV not found", none, none)) ∧
    (csvExists = true → edges = [] →
      mainModel csvExists order edges noDot =
        (1, some "WARN: No edges parsed from CSV. No diagram produced.",
         none, none)) ∧
    ((mainModel csvExists order edges noDot).1 = 0 ↔
      csvExists = true ∧ edges ≠ []) ∧
    (((mainModel csvExists order edges false).2.2.1 ≠ none ∧
        (mainModel csvExists order edges false).2.2.2 ≠ none) ↔
      csvExists = true ∧ edges ≠ []) ∧
    ((2 : ℕ) ≠ 1 ∧ (1 : ℕ) ≠ 0 ∧ (2 : ℕ) ≠ 0) := by
  cases csvExists with
  | false => simp [mainModel]
  | true =>
    cases edges with
    | nil => simp [mainModel]
    | cons e tl =>
      refine ⟨?_, ?_, ?_, ?_, ?_, by omega⟩
      · by_cases hd : noDot = true <;> simp [mainModel, hd]
      · intro h
        cases h
      · intro _ h
        cases h
      · by_cases hd : noDot = true <;> simp [mainModel, hd]
      · simp [mainModel]

theorem claim_C7_witness :
    mainModel false ["n1"] [("a", "b")] false =
      (2, some "ERR: CSV not found", none, none) :=
  (claim_C7_driver_statuses false ["n1"] [("a", "b")] false).2.1 rfl

/-- C9: the two renderers assign opposite hues to switch and server —
the SVG fill table gives switch light green `#dcfce7` and server light
blue `#dbeafe`, while the DOT node statement gives switch
`fillcolor=lightblue` and server `fillcolor=lightgreen`; a node
classified `other` gets the bare DOT attribute list `[shape=ellipse];`,
which mentions no fill attribute. -/
theorem claim_C9_renderer_colors (n : String) :
    svgFill "switch" = "#dcfce7" ∧
    svgFill "server" = "#dbeafe" ∧
    (classify_node n = "switch" → dotNodeLine n =
      "  \"" ++ n ++ "\" [shape=box, style=filled, fillcolor=lightblue];") ∧
    (classify_node n = "server" → dotNodeLine n =
      "  \"" ++ n ++ "\" [shape=component, style=filled, fillcolor=lightgreen];") ∧
    (classify_node n = "workstation" → dotNodeLine n =
      "  \"" ++ n ++ "\" [shape=ellipse, style=filled, fillcolor=gold];") ∧
    (classify_node n = "other" → dotNodeLine n =
      "  \"" ++ n ++ "\" [shape=ellipse];") ∧
    strIn "fillcolor" "\" [shape=ellipse];" = false := by
  refine ⟨rfl, rfl, ?_, ?_, ?_, ?_, by decide⟩ <;>
    (intro h; simp [dotNodeLine, h])

theorem claim_C9_witness :
    dotNodeLine "sw-1" =
      "  \"" ++ "sw-1" ++ "\" [shape=box, style=filled, fillcolor=lightblue];" :=
  (claim_C9_renderer_colors "sw-1").2.2.1 (by decide)

theorem getLast_append_gt (s : String) :
    (s ++ "\">").data.getLast? = some '>' := by
  rw [String.data_append, List.getLast?_append]
  rfl

theorem joinNl_cons (a : String) (l : List String) :
    ∃ r, joinNl (a :: l) = a ++ r := by
  cases l with
  | nil => exact ⟨"", by show a = a ++ ""; rw [String.append_empty]⟩
  | cons b rest =>
    exact ⟨"\n" ++ joinNl (b :: rest),
      String.append_assoc a "\n" (joinNl (b :: rest))⟩

/-- C10: for every input, the SVG renderer's output starts with the XML
declaration immediately followed by the two-character sequence
backslash-`n` (a literal `\n`, not a newline) before the `<svg>` open
tag, and the same two-character sequence terminates the `<svg>` open tag
(which ends in `>`) and the `<style>` block; the separating characters
are not whitespace. -/
theorem claim_C10_svg_header_literal_backslash_n (order : List String)
    (edges : List (String × String)) (lm : String → ℕ) :
    (∃ rest : String, render_svg order edges lm =
      svgDecl ++ bsn ++ svgOpenTag (canvasW lm order) (canvasH lm order) ++
        bsn ++ svgStyle ++ bsn ++ rest) ∧
    svgDecl = "<?xml version=\"1.0\" encoding=\"UTF-8\"?>" ∧
    bsn.data = ['\\', 'n'] ∧
    ('\n' ∉ bsn.data) ∧
    bsn.data.all (fun c => !c.isWhitespace) = true ∧
    (svgOpenTag (canvasW lm order) (canvasH lm order)).data.getLast? =
      some '>' ∧
    (svgStyle.data.take 7 = "<style>".data ∧
      svgStyle.data.reverse.take 8 = "</style>".data.reverse) := by
  refine ⟨?_, rfl, by decide, by decide, by decide, ?_, by decide, by decide⟩
  · obtain ⟨r, hr⟩ := joinNl_cons
      (svgHeader (canvasW lm order) (canvasH lm order))
      (["<rect x=\"0\" y=\"0\" width=\"100%\" height=\"100%\" fill=\"#ffffff\"/>",
        "<text x=\"16\" y=\"20\">Network diagram</text>"] ++
       svgEdgeLines (positionsList lm order) edges ++
       svgNodeLines (positionsList lm order) order ++
       svgLegendLines (canvasW lm order) ++ ["</svg>"])
    exact ⟨r, hr⟩
  · exact getLast_append_gt _

theorem coe_eq_of_untop_eq {x y : HopDist} (hx : x ≠ ⊤) (hy : y ≠ ⊤)
    (h : x.untop' 0 = y.untop' 0) : x = y := by
  obtain ⟨a, ha⟩ := WithTop.ne_top_iff_exists.1 hx
  obtain ⟨b, hb⟩ := WithTop.ne_top_iff_exists.1 hy
  rw [← ha, ← hb, WithTop.untop'_coe, WithTop.untop'_coe] at h
  rw [← ha, ← hb, h]

theorem seedsOf_perm {order1 order2 : List String} (h : order1.Perm order2)
    (hseed : ∃ n ∈ order1,
      classify_node n = "server" ∨ classify_node n = "switch") :
    (seedsOf order1).Perm (seedsOf order2) := by
  unfold seedsOf
  have hse : (order1.filter (fun n => classify_node n == "server")).Perm
      (order2.filter (fun n => classify_node n == "server")) := h.filter _
  have hsw : (order1.filter (fun n => classify_node n == "switch")).Perm
      (order2.filter (fun n => classify_node n == "switch")) := h.filter _
  rw [hse.isEmpty_eq, hsw.isEmpty_eq]
  split
  · split
    · rename_i hemp1 hemp2
      exfalso
      obtain ⟨n, hn, hc⟩ := hseed
      rcases hc with hc | hc
      · have hmem : n ∈ order2.filter (fun n => classify_node n == "server") :=
          hse.mem_iff.1 (List.mem_filter.2 ⟨hn, by rw [hc]; rfl⟩)
        rw [List.isEmpty_iff.1 hemp1] at hmem
        cases hmem
      · have hmem : n ∈ order2.filter (fun n => classify_node n == "switch") :=
          hsw.mem_iff.1 (List.mem_filter.2 ⟨hn, by rw [hc]; rfl⟩)
        rw [List.isEmpty_iff.1 hemp2] at hmem
        cases hmem
    · exact hsw
  · exact hse

theorem withinB_congr {order1 order2 seeds1 seeds2 : List String}
    (adjf : String → List String)
    (hO : ∀ v, v ∈ order1 ↔ v ∈ order2)
    (hS : ∀ v, v ∈ seeds1 ↔ v ∈ seeds2) :
    ∀ k v, withinB order1 adjf seeds1 k v = withinB order2 adjf seeds2 k v := by
  intro k
  induction k with
  | zero =>
    intro v
    unfold withinB
    exact decide_eq_decide.2 (hS v)
  | succ k ih =>
    intro v
    unfold withinB
    rw [ih v]
    rw [Bool.eq_iff_iff]
    rw [Bool.or_eq_true, Bool.or_eq_true]
    constructor
    · rintro (h | h)
      · exact Or.inl h
      · right
        rw [List.any_eq_true] at h ⊢
        obtain ⟨u, hu, hb⟩ := h
        rw [Bool.and_eq_true] at hb
        exact ⟨u, (hO u).1 hu, by rw [Bool.and_eq_true, ← ih u]; exact hb⟩
    · rintro (h | h)
      · exact Or.inl h
      · right
        rw [List.any_eq_true] at h ⊢
        obtain ⟨u, hu, hb⟩ := h
        rw [Bool.and_eq_true] at hb
        exact ⟨u, (hO u).2 hu, by rw [Bool.and_eq_true, ih u]; exact hb⟩

theorem bfsFinal_dist_perm {order1 order2 : List String}
    (edges : List (String × String)) (h : order1.Perm order2)
    (hN : order1.Nodup)
    (hE : ∀ e ∈ edges, e.1 ∈ order1 ∧ e.2 ∈ order1)
    (hseed : ∃ n ∈ order1,
      classify_node n = "server" ∨ classify_node n = "switch") :
    ∀ v, (bfsFinal order1 edges).dist v = (bfsFinal order2 edges).dist v := by
  have hN2 : order2.Nodup := h.nodup hN
  have hE2 : ∀ e ∈ edges, e.1 ∈ order2 ∧ e.2 ∈ order2 := by
    intro e he
    exact ⟨h.mem_iff.1 (hE e he).1, h.mem_iff.1 (hE e he).2⟩
  have hsp := seedsOf_perm h hseed
  have hw := withinB_congr (neighbors edges) (fun v => h.mem_iff)
    (fun v => hsp.mem_iff)
  intro v
  by_cases h1 : (bfsFinal order1 edges).dist v = ⊤
  · by_cases h2 : (bfsFinal order2 edges).dist v = ⊤
    · rw [h1, h2]
    · exfalso
      obtain ⟨hchar2, _⟩ := bfsFinal_dist_char order2 edges hN2 hE2 v
      obtain ⟨hwithin2, _⟩ := hchar2 h2
      obtain ⟨_, hfalse1⟩ := bfsFinal_dist_char order1 edges hN hE v
      have := hfalse1 h1 (((bfsFinal order2 edges).dist v).untop' 0)
      rw [hw] at this
      rw [this] at hwithin2
      cases hwithin2
  · by_cases h2 : (bfsFinal order2 edges).dist v = ⊤
    · exfalso
      obtain ⟨hchar1, _⟩ := bfsFinal_dist_char order1 edges hN hE v
      obtain ⟨hwithin1, _⟩ := hchar1 h1
      obtain ⟨_, hfalse2⟩ := bfsFinal_dist_char order2 edges hN2 hE2 v
      have := hfalse2 h2 (((bfsFinal order1 edges).dist v).untop' 0)
      rw [← hw] at this
      rw [this] at hwithin1
      cases hwithin1
    · obtain ⟨hchar1, _⟩ := bfsFinal_dist_char order1 edges hN hE v
      obtain ⟨hchar2, _⟩ := bfsFinal_dist_char order2 edges hN2 hE2 v
      obtain ⟨hw1, hmin1⟩ := hchar1 h1
      obtain ⟨hw2, hmin2⟩ := hchar2 h2
      apply coe_eq_of_untop_eq h1 h2
      apply le_antisymm
      · exact hmin1 _ (by rw [hw]; exact hw2)
      · exact hmin2 _ (by rw [← hw]; exact hw1)

theorem assign_layers_perm {order1 order2 : List String}
    (edges : List (String × String)) (h : order1.Perm order2)
    (hN : order1.Nodup)
    (hE : ∀ e ∈ edges, e.1 ∈ order1 ∧ e.2 ∈ order1)
    (hseed : ∃ n ∈ order1,
      classify_node n = "server" ∨ classify_node n = "switch") :
    assign_layers order1 edges = assign_layers order2 edges := by
  have hpre : ∀ n, preLayer order1 edges n = preLayer order2 edges n := by
    intro n
    rw [preLayer_untop, preLayer_untop, bfsFinal_dist_perm edges h hN hE hseed]
  have hmapPre : (order1.map (preLayer order1 edges)).Perm
      (order2.map (preLayer order2 edges)) := by
    rw [List.map_congr_left (fun n _ => hpre n)]
    exact h.map _
  have hmax : maxPre order1 edges = maxPre order2 edges :=
    pyMax_perm hmapPre
  have hpush : ∀ n, pushedLayer order1 edges n = pushedLayer order2 edges n := by
    intro n
    unfold pushedLayer
    rw [hpre n, hmax]
  have hmapPush : (order1.map (pushedLayer order1 edges)).Perm
      (order2.map (pushedLayer order2 edges)) := by
    rw [List.map_congr_left (fun n _ => hpush n)]
    exact h.map _
  have hvals : layerVals order1 edges = layerVals order2 edges := by
    unfold layerVals
    refine List.eq_of_perm_of_sorted ?_
      (List.sorted_insertionSort _ _) (List.sorted_insertionSort _ _)
    exact (List.perm_insertionSort _ _).trans
      (hmapPush.dedup.trans (List.perm_insertionSort _ _).symm)
  funext n
  unfold assign_layers
  rw [hvals, hpush n]

theorem colOf_perm {order1 order2 : List String} (lm : String → ℕ)
    (h : order1.Perm order2) (i : ℕ) :
    colOf lm order1 i = colOf lm order2 i := by
  unfold colOf
  refine List.eq_of_perm_of_sorted ?_
    (List.sorted_insertionSort _ _) (List.sorted_insertionSort _ _)
  exact (List.perm_insertionSort _ _).trans
    ((h.filter _).trans (List.perm_insertionSort _ _).symm)

theorem colIndices_perm {order1 order2 : List String} (lm : String → ℕ)
    (h : order1.Perm order2) :
    colIndices lm order1 = colIndices lm order2 := by
  unfold colIndices
  refine List.eq_of_perm_of_sorted ?_
    (List.sorted_insertionSort _ _) (List.sorted_insertionSort _ _)
  exact (List.perm_insertionSort _ _).trans
    ((h.map lm).dedup.trans (List.perm_insertionSort _ _).symm)

theorem orderedCols_perm {order1 order2 : List String} (lm : String → ℕ)
    (h : order1.Perm order2) :
    orderedCols lm order1 = orderedCols lm order2 := by
  unfold orderedCols
  rw [colIndices_perm lm h]
  exact List.map_congr_left (fun i _ => colOf_perm lm h i)

theorem sortedNodes_perm {order1 order2 : List String} (h : order1.Perm order2) :
    List.insertionSort (· ≤ ·) order1 = List.insertionSort (· ≤ ·) order2 := by
  refine List.eq_of_perm_of_sorted ?_
    (List.sorted_insertionSort _ _) (List.sorted_insertionSort _ _)
  exact (List.perm_insertionSort _ _).trans
    (h.trans (List.perm_insertionSort _ _).symm)

/-- C1 counterexample: with no server or switch in the node set, the
seed fallback `next(iter(nodes))` picks whichever node the runtime's set
iteration yields first, and the pipeline's output depends on it: for the
single-edge input `("a","b")` (both endpoints classify `other`, so the
fallback is taken), the two enumeration orders of the same two-node set
give different layer maps — `"a"` is on layer 0 in one run and on
layer 1 in the other.  Hence the layer map (and with it the downstream
position map and artifacts) is not a function of the input edge list
alone, contradicting the claim precisely in the fallback case it
includes. -/
theorem claim_C1_counterexample :
    (["a", "b"].Perm ["b", "a"] ∧ ["a", "b"].Nodup ∧ ["b", "a"].Nodup) ∧
    (∀ n ∈ ["a", "b"], classify_node n ≠ "server" ∧ classify_node n ≠ "switch") ∧
    assign_layers ["a", "b"] [("a", "b")] "a" = 0 ∧
    assign_layers ["b", "a"] [("a", "b")] "a" = 1 ∧
    assign_layers ["a", "b"] [("a", "b")] ≠
      assign_layers ["b", "a"] [("a", "b")] := by
  refine ⟨by decide, by decide, by decide, by decide, ?_⟩
  intro hfun
  have h0 : assign_layers ["a", "b"] [("a", "b")] "a" = 0 := by decide
  have h1 : assign_layers ["b", "a"] [("a", "b")] "a" = 1 := by decide
  rw [hfun, h1] at h0
  cases h0

/-- C1 (amended): determinism holds whenever the seed-selection fallback
is not taken — if some node classifies as server or switch, then any two
runs over the same input edge list, differing only in the order in which
the runtime enumerates the node set, produce identical layer maps,
position maps, canvas sizes and rendered artifacts.  (When the fallback
is taken the output may depend on the enumeration order, see the
counterexample.) -/
theorem claim_C1_pipeline_determinism (order1 order2 : List String)
    (edges : List (String × String)) (h : order1.Perm order2)
    (hN : order1.Nodup)
    (hE : ∀ e ∈ edges, e.1 ∈ order1 ∧ e.2 ∈ order1)
    (hseed : ∃ n ∈ order1,
      classify_node n = "server" ∨ classify_node n = "switch") :
    assign_layers order1 edges = assign_layers order2 edges ∧
    positionsList (assign_layers order1 edges) order1 =
      positionsList (assign_layers order2 edges) order2 ∧
    canvasW (assign_layers order1 edges) order1 =
      canvasW (assign_layers order2 edges) order2 ∧
    canvasH (assign_layers order1 edges) order1 =
      canvasH (assign_layers order2 edges) order2 ∧
    render_svg order1 edges (assign_layers order1 edges) =
      render_svg order2 edges (assign_layers order2 edges) ∧
    render_dot order1 edges (assign_layers order1 edges) =
      render_dot order2 edges (assign_layers order2 edges) := by
  have hlm := assign_layers_perm edges h hN hE hseed
  have hoc : orderedCols (assign_layers order1 edges) order1 =
      orderedCols (assign_layers order2 edges) order2 := by
    rw [hlm]
    exact orderedCols_perm _ h
  have hposl : positionsList (assign_layers order1 edges) order1 =
      positionsList (assign_layers order2 edges) order2 := by
    unfold positionsList
    rw [hoc]
  have hwc : canvasW (assign_layers order1 edges) order1 =
      canvasW (assign_layers order2 edges) order2 := by
    unfold canvasW
    rw [hoc]
  have hhc : canvasH (assign_layers order1 edges) order1 =
      canvasH (assign_layers order2 edges) order2 := by
    unfold canvasH
    rw [hoc]
  have hnodes := sortedNodes_perm h
  refine ⟨hlm, hposl, hwc, hhc, ?_, ?_⟩
  · unfold render_svg
    rw [hposl, hwc, hhc]
    unfold svgNodeLines
    rw [hnodes]
  · unfold render_dot
    rw [hnodes]

theorem claim_C1_witness :
    assign_layers ["ser-1", "b"] [("ser-1", "b")] =
      assign_layers ["b", "ser-1"] [("ser-1", "b")] :=
  (claim_C1_pipeline_determinism ["ser-1", "b"] ["b", "ser-1"]
    [("ser-1", "b")] (by decide) (by decide) (by decide)
    ⟨"ser-1", by decide, by decide⟩).1
